import Mathlib

/-!
Verification of the HgRepositoryClient status/diff cache (nuclide).

Shallow embedding of the HgRepositoryClient class: the per-path status
cache, the modified-directory reference-count index, the per-path diff
cache with in-flight tracking, the bounded LRU revision caches, and the
refresh logic (updateStatuses, updateDiffInfo, updateChangedPaths,
refreshStatusesOfAllFilesInCache), together with the synchronous getters
and teardown.

File paths are modelled as lists of segments (the source uses strings
with separator characters; the segment representation carries the same
ancestor structure).  JavaScript objects and Maps used as dictionaries
are modelled as association lists with first-key-wins lookup.  Async
backend calls are modelled by passing the backend response in as a
function argument and recording each issued call in a trace.
-/

namespace Hg

/-- Status code identifiers, the closed value set of StatusCodeId from
hg-constants (the constants module is outside the embedded sources; the
set is fixed by the spec data model). -/
inductive StatusCodeId where
  | clean
  | modified
  | added
  | untracked
  | ignored
  | missing
  | removed
deriving DecidableEq, Repr

/-- Numeric status codes, the value set of StatusCodeNumber from
hg-constants. -/
inductive StatusCodeNumber where
  | clean
  | modified
  | added
  | untracked
  | ignored
  | missing
  | removed
deriving DecidableEq, Repr

/-- Translation table StatusCodeIdToNumber from hg-constants. -/
def statusCodeIdToNumber : StatusCodeId → StatusCodeNumber
  | .clean => .clean
  | .modified => .modified
  | .added => .added
  | .untracked => .untracked
  | .ignored => .ignored
  | .missing => .missing
  | .removed => .removed

/-- Status option values (HgStatusOption from hg-constants). -/
inductive HgStatusOption where
  | onlyNonIgnored
  | onlyIgnored
  | allStatuses
deriving DecidableEq, Repr

/-- Command options record passed to getStatuses (HgStatusCommandOptions). -/
structure HgStatusCommandOptions where
  hgStatusOption : HgStatusOption
deriving DecidableEq, Repr

/-- Filter used for the default only-non-ignored status option. -/
def filterForOnlyNotIgnored (code : StatusCodeId) : Bool :=
  code ≠ StatusCodeId.ignored

/-- Filter used for the only-ignored status option. -/
def filterForOnlyIgnored (code : StatusCodeId) : Bool :=
  code = StatusCodeId.ignored

/-- Filter used for the all-statuses option (name keeps the source's
spelling). -/
def filterForAllStatues (_code : StatusCodeId) : Bool :=
  true

/-- Extraction of the status option from the optional options record
(the source's getStatusOption helper). -/
def getStatusOption (options : Option HgStatusCommandOptions) : Option HgStatusOption :=
  options.map (·.hgStatusOption)

/-- Predicate selection of getPredicateForRelevantStatuses. -/
def getPredicateForRelevantStatuses
    (options : Option HgStatusCommandOptions) : StatusCodeId → Bool :=
  match getStatusOption options with
  | some .onlyIgnored => filterForOnlyIgnored
  | some .allStatuses => filterForAllStatues
  | _ => filterForOnlyNotIgnored

/-- File paths, modelled as lists of path segments. -/
abbrev Path := List String

/-- Relevance check of isPathRelevant: a path is relevant when the
project directory contains it or equals it, i.e. when the project
directory is a prefix of the path. -/
def isPathRelevant (projectDirectory p : Path) : Bool :=
  projectDirectory.isPrefixOf p

/-- Association-list lookup modelling JavaScript dictionary access:
the first binding of the key wins. -/
def alookup {α β : Type} [DecidableEq α] : List (α × β) → α → Option β
  | [], _ => none
  | e :: rest, k => if e.1 = k then some e.2 else alookup rest k

/-- Association-list update modelling JavaScript dictionary assignment:
the key's previous bindings are dropped and the new binding added. -/
def aset {α β : Type} [DecidableEq α] (m : List (α × β)) (k : α) (v : β) : List (α × β) :=
  (k, v) :: m.filter (fun e => e.1 ≠ k)

/-- Association-list deletion modelling the JavaScript delete operator. -/
def aerase {α β : Type} [DecidableEq α] (m : List (α × β)) (k : α) : List (α × β) :=
  m.filter (fun e => e.1 ≠ k)

theorem alookup_cons {α β : Type} [DecidableEq α] (k' : α) (v : β) (rest : List (α × β)) (q : α) :
    alookup ((k', v) :: rest) q = if k' = q then some v else alookup rest q := rfl

theorem aset_alookup_self {α β : Type} [DecidableEq α] (m : List (α × β)) (k : α) (v : β) :
    alookup (aset m k v) k = some v := by
  simp [aset, alookup]

theorem alookup_filter_ne {α β : Type} [DecidableEq α] (m : List (α × β)) (k q : α)
    (hq : q ≠ k) : alookup (m.filter (fun e => e.1 ≠ k)) q = alookup m q := by
  induction m with
  | nil => rfl
  | cons e rest ih =>
    rcases e with ⟨k', v⟩
    by_cases he : k' = k
    · have h1 : (decide ((k', v).1 ≠ k)) = false := by simp [he]
      rw [List.filter_cons, h1]
      simp only [Bool.false_eq_true, if_false]
      rw [ih, alookup_cons]
      have h2 : ¬(k' = q) := fun h => hq (h.symm.trans he)
      simp [h2]
    · have h1 : (decide ((k', v).1 ≠ k)) = true := by simp [he]
      rw [List.filter_cons, h1]
      simp only [if_true]
      rw [alookup_cons, alookup_cons, ih]

theorem aset_alookup_ne {α β : Type} [DecidableEq α] (m : List (α × β)) (k : α) (v : β) (q : α)
    (hq : q ≠ k) : alookup (aset m k v) q = alookup m q := by
  rw [aset, alookup_cons, if_neg (fun h => hq h.symm)]
  exact alookup_filter_ne m k q hq

theorem aerase_alookup_self {α β : Type} [DecidableEq α] (m : List (α × β)) (k : α) :
    alookup (aerase m k) k = none := by
  induction m with
  | nil => rfl
  | cons e rest ih =>
    rcases e with ⟨k', v⟩
    by_cases he : k' = k
    · have h1 : (decide ((k', v).1 ≠ k)) = false := by simp [he]
      simp only [aerase, List.filter_cons, h1, Bool.false_eq_true, if_false]
      exact ih
    · have h1 : (decide ((k', v).1 ≠ k)) = true := by simp [he]
      simp only [aerase, List.filter_cons, h1, if_true]
      rw [alookup_cons, if_neg he]
      exact ih

theorem aerase_alookup_ne {α β : Type} [DecidableEq α] (m : List (α × β)) (k q : α)
    (hq : q ≠ k) : alookup (aerase m k) q = alookup m q :=
  alookup_filter_ne m k q hq

/-- Diff information for one file: added and deleted line counts plus
the line-level diff records. -/
structure DiffInfo where
  added : Nat
  deleted : Nat
  lineDiffs : List Nat
deriving DecidableEq, Repr

/-- Bounded least-recently-used cache (the lru-cache module, external to
the embedded sources): entries are kept most-recent-first and trimmed to
the capacity on insertion. -/
structure LRU (β : Type) where
  max : Nat
  entries : List (String × β)
deriving DecidableEq, Repr

/-- Lookup with recency update, modelling lru-cache get. -/
def lruGet {β : Type} (c : LRU β) (k : String) : Option β × LRU β :=
  match alookup c.entries k with
  | none => (none, c)
  | some v => (some v, { c with entries := (k, v) :: c.entries.filter (fun e => e.1 ≠ k) })

/-- Insertion modelling lru-cache set: the new binding goes to the
front and the list is trimmed to the capacity. -/
def lruSet {β : Type} (c : LRU β) (k : String) (v : β) : LRU β :=
  { c with entries := ((k, v) :: c.entries.filter (fun e => e.1 ≠ k)).take c.max }

/-- In-place mutation of the value stored under a key, modelling a
JavaScript mutation of the shared object held by the cache (no recency
update). -/
def lruModify {β : Type} (c : LRU β) (k : String) (f : β → β) : LRU β :=
  { c with entries := c.entries.map (fun e => if e.1 = k then (k, f e.2) else e) }

/-- Emptying modelling lru-cache reset. -/
def lruReset {β : Type} (c : LRU β) : LRU β :=
  { c with entries := [] }

/-- Change lists at a revision (RevisionFileChanges); modelled from the
spec: a list of changed file paths for one revision. -/
abbrev RevisionFileChanges := List Path

/-- Events emitted through the class emitter, plus the disposal effects
performed by teardown. -/
inductive Event where
  | didChangeStatus (path : Path) (pathStatus : StatusCodeNumber)
  | didChangeStatuses
  | didDestroy
  | disposeEditorSubscription (path : Path)
  | disposeSubscriptions
deriving DecidableEq, Repr

/-- Trace records of calls issued to the backend HgService. -/
inductive ServiceCall where
  | fetchStatuses (paths : List Path) (options : Option HgStatusCommandOptions)
  | fetchDiffInfo (paths : List Path)
  | fetchFileContentAtRevision (path : Path) (revision : String)
  | fetchFilesChangedAtRevision (revision : String)
deriving DecidableEq, Repr

/-- The mutable state of one HgRepositoryClient instance: its caches,
in-flight bookkeeping, editor subscriptions and teardown flag. -/
structure RepoState where
  projectDirectory : Path
  hgStatusCache : List (Path × StatusCodeId)
  modifiedDirectoryCache : List (Path × Nat)
  hgDiffCache : List (Path × DiffInfo)
  hgDiffCacheFilesUpdating : List Path
  hgDiffCacheFilesToClear : List Path
  revisionIdToFileChanges : LRU RevisionFileChanges
  fileContentsAtRevisionIds : LRU (List (Path × String))
  editorSubscriptions : List Path
  isDestroyed : Bool
deriving DecidableEq, Repr

/-- State built by the constructor: empty caches, revision LRU caches
of capacity 100 and 20, not destroyed. -/
def initialState (projectDirectory : Path) : RepoState where
  projectDirectory := projectDirectory
  hgStatusCache := []
  modifiedDirectoryCache := []
  hgDiffCache := []
  hgDiffCacheFilesUpdating := []
  hgDiffCacheFilesToClear := []
  revisionIdToFileChanges := { max := 100, entries := [] }
  fileContentsAtRevisionIds := { max := 20, entries := [] }
  editorSubscriptions := []
  isDestroyed := false

/-!  Synchronous cache-only getters.  Each getter is a pure function of
the state (the source methods read the caches and mutate nothing). -/

/-- Cached status getter getCachedPathStatus: CLEAN for a null path and
for any path absent from the status cache. -/
def getCachedPathStatus (st : RepoState) (filePath : Option Path) : StatusCodeNumber :=
  match filePath with
  | none => StatusCodeNumber.clean
  | some fp =>
    match alookup st.hgStatusCache fp with
    | some cachedStatus => statusCodeIdToNumber cachedStatus
    | none => StatusCodeNumber.clean

/-- Directory status getter getDirectoryStatus: MODIFIED exactly when
the directory is present in the modified-directory cache, CLEAN
otherwise and for a null argument.  Directory normalization of the
source (trailing-separator form) is the identity on segment paths. -/
def getDirectoryStatus (st : RepoState) (directoryPath : Option Path) : StatusCodeNumber :=
  match directoryPath with
  | none => StatusCodeNumber.clean
  | some d =>
    if (alookup st.modifiedDirectoryCache d).isSome then StatusCodeNumber.modified
    else StatusCodeNumber.clean

/-- Diff stats getter getDiffStats: zero counts for a null path and for
any path absent from the diff cache. -/
def getDiffStats (st : RepoState) (filePath : Option Path) : Nat × Nat :=
  match filePath with
  | none => (0, 0)
  | some fp =>
    match alookup st.hgDiffCache fp with
    | some cachedData => (cachedData.added, cachedData.deleted)
    | none => (0, 0)

/-- Line diffs getter getLineDiffs: the empty list for a null path and
for any path absent from the diff cache. -/
def getLineDiffs (st : RepoState) (filePath : Option Path) : List Nat :=
  match filePath with
  | none => []
  | some fp =>
    match alookup st.hgDiffCache fp with
    | some diffInfo => diffInfo.lineDiffs
    | none => []

/-! Modified-directory index.  The helpers addAllParentDirectoriesToCache
and removeAllParentDirectoriesFromCache live in the utils module, which
is not among the embedded sources. -/

/-- Ancestor directories of a path that lie strictly above the boundary
directory (the parent of the project root) and strictly contain nothing
of the path beyond a proper prefix.  Modelled from the spec: the
ancestor chain between the path and the project boundary. -/
def ancestorDirectories (boundary p : Path) : List Path :=
  ((List.range p.length).map (fun n => p.take n)).filter
    (fun d => boundary.isPrefixOf d ∧ d ≠ boundary)

/-- Reference-count increment for one directory entry. -/
def incrementDirectoryCount (m : List (Path × Nat)) (d : Path) : List (Path × Nat) :=
  match alookup m d with
  | some n => aset m d (n + 1)
  | none => aset m d 1

/-- Reference-count decrement for one directory entry, deleting the
entry when the count reaches zero. -/
def decrementDirectoryCount (m : List (Path × Nat)) (d : Path) : List (Path × Nat) :=
  match alookup m d with
  | some n => if n ≤ 1 then aerase m d else aset m d (n - 1)
  | none => m

/-- Modelled from the spec: addAllParentDirectoriesToCache (utils module,
not among the embedded sources) increments the reference count of every
ancestor directory between the path and the project boundary. -/
def addAllParentDirectoriesToCache
    (m : List (Path × Nat)) (filePath boundary : Path) : List (Path × Nat) :=
  (ancestorDirectories boundary filePath).foldl incrementDirectoryCount m

/-- Modelled from the spec: removeAllParentDirectoriesFromCache (utils
module, not among the embedded sources) decrements the same ancestor
chain, deleting any entry whose count reaches zero. -/
def removeAllParentDirectoriesFromCache
    (m : List (Path × Nat)) (filePath boundary : Path) : List (Path × Nat) :=
  (ancestorDirectories boundary filePath).foldl decrementDirectoryCount m

/-! Status updates (updateStatuses and its two phases). -/

/-- Accumulator of the cache mutations and pending change events built
while one status update runs. -/
structure StatusUpdate where
  statusCache : List (Path × StatusCodeId)
  dirCache : List (Path × Nat)
  events : List Event
deriving DecidableEq, Repr

/-- Processing of one entry of the fetched status map, mirroring the
body of the forEach in updateStatuses: an event is recorded when the
cached status differs (absence standing for CLEAN), a CLEAN result
deletes the entry and rolls back the directory index, any other result
is stored, and a MODIFIED result bumps the directory index. -/
def applyStatusEntry (boundary : Path) (acc : StatusUpdate)
    (entry : Path × StatusCodeId) : StatusUpdate :=
  let filePath := entry.1
  let newStatusId := entry.2
  let oldStatus := alookup acc.statusCache filePath
  let changed : Bool :=
    match oldStatus with
    | some o => o ≠ newStatusId
    | none => newStatusId ≠ StatusCodeId.clean
  if changed then
    let events := acc.events ++
      [Event.didChangeStatus filePath (statusCodeIdToNumber newStatusId)]
    if newStatusId = StatusCodeId.clean then
      { statusCache := aerase acc.statusCache filePath,
        dirCache := removeAllParentDirectoriesFromCache acc.dirCache filePath boundary,
        events := events }
    else
      { statusCache := aset acc.statusCache filePath newStatusId,
        dirCache :=
          if newStatusId = StatusCodeId.modified then
            addAllParentDirectoriesToCache acc.dirCache filePath boundary
          else acc.dirCache,
        events := events }
  else acc

/-- Left-to-right processing of the fetched status map. -/
def applyStatusEntries (boundary : Path) (acc : StatusUpdate) :
    List (Path × StatusCodeId) → StatusUpdate
  | [] => acc
  | e :: rest => applyStatusEntries boundary (applyStatusEntry boundary acc e) rest

/-- Eviction step for a queried file under the only-ignored option: a
file cached as IGNORED but absent from the response is dropped. -/
def evictOnlyIgnoredStep (acc : StatusUpdate) (filePath : Path) : StatusUpdate :=
  if alookup acc.statusCache filePath = some StatusCodeId.ignored then
    { acc with statusCache := aerase acc.statusCache filePath }
  else acc

/-- Eviction step for a queried file under the all-statuses option: the
file must have been deleted from the filesystem, so its entry is dropped
unconditionally, rolling back the directory index for MODIFIED. -/
def evictAllStatusesStep (boundary : Path) (acc : StatusUpdate) (filePath : Path) : StatusUpdate :=
  let cachedStatusId := alookup acc.statusCache filePath
  { acc with
    statusCache := aerase acc.statusCache filePath,
    dirCache :=
      if cachedStatusId = some StatusCodeId.modified then
        removeAllParentDirectoriesFromCache acc.dirCache filePath boundary
      else acc.dirCache }

/-- Eviction step for a queried file under the default option: any
non-IGNORED cached entry absent from the response is dropped, rolling
back the directory index for MODIFIED. -/
def evictDefaultStep (boundary : Path) (acc : StatusUpdate) (filePath : Path) : StatusUpdate :=
  if alookup acc.statusCache filePath ≠ some StatusCodeId.ignored then
    { acc with
      statusCache := aerase acc.statusCache filePath,
      dirCache :=
        if alookup acc.statusCache filePath = some StatusCodeId.modified then
          removeAllParentDirectoriesFromCache acc.dirCache filePath boundary
        else acc.dirCache }
  else acc

/-- Left-to-right fold of an eviction step over the queried files. -/
def evictFold (step : StatusUpdate → Path → StatusUpdate) (acc : StatusUpdate) :
    List Path → StatusUpdate
  | [] => acc
  | p :: rest => evictFold step (step acc p) rest

/-- Dispatch of the eviction pass on the status option, mirroring the
three branches of updateStatuses. -/
def evictQueriedFiles (statusOption : Option HgStatusOption) (boundary : Path)
    (acc : StatusUpdate) (queriedFiles : List Path) : StatusUpdate :=
  match statusOption with
  | some HgStatusOption.onlyIgnored => evictFold evictOnlyIgnoredStep acc queriedFiles
  | some HgStatusOption.allStatuses => evictFold (evictAllStatusesStep boundary) acc queriedFiles
  | _ => evictFold (evictDefaultStep boundary) acc queriedFiles

/-- Keep-first deduplication, modelling iteration over a JavaScript Set
built by insertion (seen keys are skipped). -/
def dedupFirst (seen : List Path) : List Path → List Path
  | [] => []
  | p :: rest => if p ∈ seen then dedupFirst seen rest else p :: dedupFirst (p :: seen) rest

theorem mem_dedupFirst (l : List Path) :
    ∀ (seen : List Path) (q : Path), q ∈ dedupFirst seen l ↔ q ∈ l ∧ q ∉ seen := by
  induction l with
  | nil => intro seen q; simp [dedupFirst]
  | cons p rest ih =>
    intro seen q
    rw [dedupFirst]
    by_cases hp : p ∈ seen
    · rw [if_pos hp, ih seen q]
      constructor
      · rintro ⟨h1, h2⟩
        exact ⟨List.mem_cons_of_mem _ h1, h2⟩
      · rintro ⟨h1, h2⟩
        rcases List.mem_cons.mp h1 with h1 | h1
        · exact absurd (h1 ▸ hp) h2
        · exact ⟨h1, h2⟩
    · rw [if_neg hp]
      constructor
      · intro hm
        rcases List.mem_cons.mp hm with hm | hm
        · exact ⟨hm ▸ List.mem_cons_self _ _, hm ▸ hp⟩
        · rcases (ih _ q).mp hm with ⟨h1, h2⟩
          refine ⟨List.mem_cons_of_mem _ h1, fun hh => h2 (List.mem_cons_of_mem _ hh)⟩
      · rintro ⟨h1, h2⟩
        rcases List.mem_cons.mp h1 with h1 | h1
        · exact h1 ▸ List.mem_cons_self _ _
        · by_cases hqp : q = p
          · exact hqp ▸ List.mem_cons_self _ _
          · refine List.mem_cons_of_mem _ ((ih _ q).mpr ⟨h1, fun hh => ?_⟩)
            rcases List.mem_cons.mp hh with hh | hh
            · exact hqp hh
            · exact h2 hh

/-- Queried files of one updateStatuses run: the distinct relevant
queried paths that are absent from the fetched status map. -/
def queriedFilesOf (pathsInRepo : List Path)
    (response : List (Path × StatusCodeId)) : List Path :=
  (dedupFirst [] pathsInRepo).filter (fun p => (alookup response p).isNone)

theorem mem_queriedFilesOf (pathsInRepo : List Path)
    (response : List (Path × StatusCodeId)) (q : Path) :
    q ∈ queriedFilesOf pathsInRepo response ↔
      q ∈ pathsInRepo ∧ alookup response q = none := by
  unfold queriedFilesOf
  rw [List.mem_filter, mem_dedupFirst]
  constructor
  · rintro ⟨⟨h1, _⟩, h2⟩
    exact ⟨h1, Option.isNone_iff_eq_none.mp (by simpa using h2)⟩
  · rintro ⟨h1, h2⟩
    refine ⟨⟨h1, by simp⟩, by simp [h2]⟩

/-- Result of one updateStatuses run: the new state, the returned map
(the raw fetched statuses), the emitted events in order, and the backend
calls issued. -/
structure UpdateStatusesResult where
  state : RepoState
  statusMap : List (Path × StatusCodeId)
  events : List Event
  calls : List ServiceCall
deriving DecidableEq, Repr

/-- Embedding of updateStatuses.  Irrelevant paths are filtered out; when
none remain the run is a no-op returning the empty map.  Otherwise the
statuses of the relevant paths are fetched (the backend response comes in
as the fetchStatuses argument), the response is folded into the cache,
queried files absent from the response are evicted per the status
option, and the change events are emitted after all cache mutations,
path events first, then one coarse event. -/
def updateStatuses (st : RepoState) (filePaths : List Path)
    (options : Option HgStatusCommandOptions)
    (fetchStatuses : List Path → List (Path × StatusCodeId)) : UpdateStatusesResult :=
  let pathsInRepo := filePaths.filter (fun p => isPathRelevant st.projectDirectory p)
  if pathsInRepo.isEmpty then
    { state := st, statusMap := [], events := [], calls := [] }
  else
    let statusMapPathToStatusId := fetchStatuses pathsInRepo
    let boundary := st.projectDirectory.dropLast
    let acc0 : StatusUpdate :=
      { statusCache := st.hgStatusCache,
        dirCache := st.modifiedDirectoryCache,
        events := [] }
    let acc1 := applyStatusEntries boundary acc0 statusMapPathToStatusId
    let queriedFiles := queriedFilesOf pathsInRepo statusMapPathToStatusId
    let acc2 := evictQueriedFiles (getStatusOption options) boundary acc1 queriedFiles
    { state :=
        { st with
          hgStatusCache := acc2.statusCache,
          modifiedDirectoryCache := acc2.dirCache },
      statusMap := statusMapPathToStatusId,
      events := acc2.events ++ [Event.didChangeStatuses],
      calls := [ServiceCall.fetchStatuses pathsInRepo options] }

/-! Cache-or-fetch status reads (getStatuses). -/

/-- Accumulator of the first loop of getStatuses: the result map built
from cache hits that pass the relevance predicate, and the cache
misses collected for the batched fetch. -/
structure GetStatusesScanAcc where
  statusMap : List (Path × StatusCodeNumber)
  pathsWithCacheMiss : List Path
deriving DecidableEq, Repr

/-- First loop of getStatuses over the requested paths: a cached status
is returned when the predicate accepts it, a cached status failing the
predicate is skipped, and an uncached path is queued as a miss. -/
def getStatusesScan (cache : List (Path × StatusCodeId)) (pred : StatusCodeId → Bool)
    (acc : GetStatusesScanAcc) : List Path → GetStatusesScanAcc
  | [] => acc
  | filePath :: rest =>
    let acc1 :=
      match alookup cache filePath with
      | some statusId =>
        if pred statusId then
          { acc with
            statusMap := aset acc.statusMap filePath (statusCodeIdToNumber statusId) }
        else acc
      | none =>
        { acc with pathsWithCacheMiss := acc.pathsWithCacheMiss ++ [filePath] }
    getStatusesScan cache pred acc1 rest

/-- Merge of the fetched status map into the result map, mirroring the
forEach over the updateStatuses return value in getStatuses. -/
def setStatusNumbers (m : List (Path × StatusCodeNumber)) :
    List (Path × StatusCodeId) → List (Path × StatusCodeNumber)
  | [] => m
  | e :: rest => setStatusNumbers (aset m e.1 (statusCodeIdToNumber e.2)) rest

/-- Result of a getStatuses call. -/
structure GetStatusesResult where
  state : RepoState
  resultMap : List (Path × StatusCodeNumber)
  events : List Event
  calls : List ServiceCall
deriving DecidableEq, Repr

/-- Embedding of getStatuses: cached statuses are served through the
option predicate, and only the cache misses go to updateStatuses, whose
full response is merged into the returned map. -/
def getStatuses (st : RepoState) (paths : List Path)
    (options : Option HgStatusCommandOptions)
    (fetchStatuses : List Path → List (Path × StatusCodeId)) : GetStatusesResult :=
  let isRelavantStatus := getPredicateForRelevantStatuses options
  let scanned := getStatusesScan st.hgStatusCache isRelavantStatus
    { statusMap := [], pathsWithCacheMiss := [] } paths
  if scanned.pathsWithCacheMiss.isEmpty then
    { state := st, resultMap := scanned.statusMap, events := [], calls := [] }
  else
    let r := updateStatuses st scanned.pathsWithCacheMiss options fetchStatuses
    { state := r.state,
      resultMap := setStatusNumbers scanned.statusMap r.statusMap,
      events := r.events,
      calls := r.calls }

/-! Diff updates (updateDiffInfo). -/

/-- Accumulator of the opening filter of updateDiffInfo, whose side
effect marks each newly fetched path as in-flight while it filters. -/
structure PathsToFetchAcc where
  updating : List Path
  pathsToFetch : List Path
deriving DecidableEq, Repr

/-- Opening filter of updateDiffInfo: irrelevant paths are dropped,
paths already in-flight are dropped, and every remaining path is marked
in-flight and kept. -/
def computePathsToFetchAux (projectDirectory : Path) (acc : PathsToFetchAcc) :
    List Path → PathsToFetchAcc
  | [] => acc
  | aPath :: rest =>
    let acc1 :=
      if ¬ isPathRelevant projectDirectory aPath then acc
      else if aPath ∈ acc.updating then acc
      else
        { updating := acc.updating ++ [aPath],
          pathsToFetch := acc.pathsToFetch ++ [aPath] }
    computePathsToFetchAux projectDirectory acc1 rest

/-- In-flight marking and path selection of updateDiffInfo, starting
from the current in-flight set. -/
def computePathsToFetch (st : RepoState) (filePaths : List Path) : PathsToFetchAcc :=
  computePathsToFetchAux st.projectDirectory
    { updating := st.hgDiffCacheFilesUpdating, pathsToFetch := [] } filePaths

/-- Merge of fetched diff info into the diff cache. -/
def mergeDiffInfo (cache : List (Path × DiffInfo)) :
    List (Path × DiffInfo) → List (Path × DiffInfo)
  | [] => cache
  | e :: rest => mergeDiffInfo (aset cache e.1 e.2) rest

/-- Deletion of every queued-for-removal path from the diff cache. -/
def eraseAllKeys (cache : List (Path × DiffInfo)) : List Path → List (Path × DiffInfo)
  | [] => cache
  | p :: rest => eraseAllKeys (aerase cache p) rest

/-- Result of one updateDiffInfo run; result is none exactly when the
backend diff fetch failed. -/
structure UpdateDiffInfoResult where
  state : RepoState
  result : Option (List (Path × DiffInfo))
  events : List Event
  calls : List ServiceCall
deriving DecidableEq, Repr

/-- Embedding of updateDiffInfo.  Paths outside the repo or already
in-flight are filtered out (the filter marks the kept paths in-flight);
with nothing left the run returns the empty map untouched.  Otherwise
one batched fetch runs, a successful result is merged into the diff
cache, the paths queued for removal are deleted after the merge, the
in-flight markers of the fetched paths are cleared whether or not the
fetch succeeded, and one coarse event is emitted. -/
def updateDiffInfo (st : RepoState) (filePaths : List Path)
    (fetchDiffInfo : List Path → Option (List (Path × DiffInfo))) : UpdateDiffInfoResult :=
  let fetched := computePathsToFetch st filePaths
  if fetched.pathsToFetch.isEmpty then
    { state := st, result := some [], events := [], calls := [] }
  else
    let pathsToDiffInfo := fetchDiffInfo fetched.pathsToFetch
    let diffCache1 :=
      match pathsToDiffInfo with
      | some m => mergeDiffInfo st.hgDiffCache m
      | none => st.hgDiffCache
    let diffCache2 := eraseAllKeys diffCache1 st.hgDiffCacheFilesToClear
    let updating2 :=
      fetched.pathsToFetch.foldl (fun s p => s.filter (fun q => q ≠ p)) fetched.updating
    { state :=
        { st with
          hgDiffCache := diffCache2,
          hgDiffCacheFilesToClear := [],
          hgDiffCacheFilesUpdating := updating2 },
      result := pathsToDiffInfo,
      events := [Event.didChangeStatuses],
      calls := [ServiceCall.fetchDiffInfo fetched.pathsToFetch] }

/-! Refresh coordination (updateChangedPaths and the full refresh). -/

/-- Threshold below or at which changed paths are refreshed
individually. -/
def MAX_INDIVIDUAL_CHANGED_PATHS : Nat := 1

/-- Result of a refresh pipeline run. -/
structure RefreshResult where
  state : RepoState
  events : List Event
  calls : List ServiceCall
deriving DecidableEq, Repr

/-- Embedding of refreshStatusesOfAllFilesInCache: the status cache, the
modified-directory index and the diff cache are cleared, the status of
the whole project tree is re-fetched with the only-non-ignored option,
and diff info is re-fetched for every path previously in the diff
cache.  The debounce/serialize wrapper around this method is a
concurrency schedule and is not part of the state transition. -/
def refreshStatusesOfAllFilesInCache (st : RepoState)
    (fetchStatuses : List Path → List (Path × StatusCodeId))
    (fetchDiffInfo : List Path → Option (List (Path × DiffInfo))) : RefreshResult :=
  let pathsInDiffCache := st.hgDiffCache.map Prod.fst
  let st1 :=
    { st with
      hgStatusCache := [],
      modifiedDirectoryCache := [],
      hgDiffCache := [] }
  let r1 := updateStatuses st1 [st1.projectDirectory]
    (some { hgStatusOption := HgStatusOption.onlyNonIgnored }) fetchStatuses
  if pathsInDiffCache.isEmpty then
    { state := r1.state, events := r1.events, calls := r1.calls }
  else
    let r2 := updateDiffInfo r1.state pathsInDiffCache fetchDiffInfo
    { state := r2.state, events := r1.events ++ r2.events, calls := r1.calls ++ r2.calls }

/-- Embedding of updateChangedPaths: with no relevant changed path the
run is a no-op; with at most MAX_INDIVIDUAL_CHANGED_PATHS relevant paths
the statuses of exactly those paths are re-fetched with the all-statuses
option and diff info is re-fetched for those of them present in the diff
cache; with more, the serialized full refresh runs instead. -/
def updateChangedPaths (st : RepoState) (changedPaths : List Path)
    (fetchStatuses : List Path → List (Path × StatusCodeId))
    (fetchDiffInfo : List Path → Option (List (Path × DiffInfo))) : RefreshResult :=
  let relevantChangedPaths := changedPaths.filter (fun p => isPathRelevant st.projectDirectory p)
  if relevantChangedPaths.isEmpty then
    { state := st, events := [], calls := [] }
  else if relevantChangedPaths.length ≤ MAX_INDIVIDUAL_CHANGED_PATHS then
    let r1 := updateStatuses st relevantChangedPaths
      (some { hgStatusOption := HgStatusOption.allStatuses }) fetchStatuses
    let diffPaths :=
      relevantChangedPaths.filter (fun p => (alookup r1.state.hgDiffCache p).isSome)
    let r2 := updateDiffInfo r1.state diffPaths fetchDiffInfo
    { state := r2.state, events := r1.events ++ r2.events, calls := r1.calls ++ r2.calls }
  else
    refreshStatusesOfAllFilesInCache st fetchStatuses fetchDiffInfo

/-! Whole-cache invalidation and teardown. -/

/-- Embedding of clearClientCache: the diff cache and the status cache
are emptied and one coarse event is emitted. -/
def clearClientCache (st : RepoState) : RepoState × List Event :=
  ({ st with hgDiffCache := [], hgStatusCache := [] },
   [Event.didChangeStatuses])

/-- Completion effect of commit: the service call streams its output and
on completion clearClientCache runs (the finally handler). -/
def commitCompleted (st : RepoState) : RepoState × List Event :=
  clearClientCache st

/-- Completion effect of amend, identical to commit: clearClientCache
runs on completion. -/
def amendCompleted (st : RepoState) : RepoState × List Event :=
  clearClientCache st

/-- Embedding of destroy: a destroyed instance returns immediately;
otherwise the flag is set, the editor subscriptions are disposed and
cleared, the did-destroy event fires, the subscriptions are disposed and
the revision LRU caches are reset. -/
def destroy (st : RepoState) : RepoState × List Event :=
  if st.isDestroyed then (st, [])
  else
    ({ st with
        isDestroyed := true,
        editorSubscriptions := [],
        revisionIdToFileChanges := lruReset st.revisionIdToFileChanges,
        fileContentsAtRevisionIds := lruReset st.fileContentsAtRevisionIds },
     (st.editorSubscriptions.map Event.disposeEditorSubscription) ++
       [Event.didDestroy, Event.disposeSubscriptions])

/-! Revision metadata caches. -/

/-- Result of a fetchFilesChangedAtRevision call. -/
structure FetchFilesChangedResult where
  state : RepoState
  changes : RevisionFileChanges
  calls : List ServiceCall
deriving DecidableEq, Repr

/-- Embedding of fetchFilesChangedAtRevision: a cache hit is returned
directly, a miss is fetched from the backend and stored under the
revision key. -/
def fetchFilesChangedAtRevision (st : RepoState) (revision : String)
    (backend : String → RevisionFileChanges) : FetchFilesChangedResult :=
  let looked := lruGet st.revisionIdToFileChanges revision
  match looked.1 with
  | some changes =>
    { state := { st with revisionIdToFileChanges := looked.2 },
      changes := changes,
      calls := [] }
  | none =>
    let fetchedChanges := backend revision
    { state := { st with revisionIdToFileChanges := lruSet looked.2 revision fetchedChanges },
      changes := fetchedChanges,
      calls := [ServiceCall.fetchFilesChangedAtRevision revision] }

/-- Result of a fetchFileContentAtRevision call. -/
structure FetchFileContentResult where
  state : RepoState
  contents : String
  calls : List ServiceCall
deriving DecidableEq, Repr

/-- Embedding of fetchFileContentAtRevision: the per-revision file map
is created on first touch of the revision, a hit on the file path within
it is returned directly, and a miss is fetched and recorded into the
shared per-revision map. -/
def fetchFileContentAtRevision (st : RepoState) (filePath : Path) (revision : String)
    (backend : Path → String → String) : FetchFileContentResult :=
  let looked := lruGet st.fileContentsAtRevisionIds revision
  let fileMap : List (Path × String) :=
    match looked.1 with
    | none => []
    | some m => m
  let lru2 :=
    match looked.1 with
    | none => lruSet looked.2 revision []
    | some _ => looked.2
  match alookup fileMap filePath with
  | some committedContents =>
    { state := { st with fileContentsAtRevisionIds := lru2 },
      contents := committedContents,
      calls := [] }
  | none =>
    let contents := backend filePath revision
    { state :=
        { st with
          fileContentsAtRevisionIds :=
            lruModify lru2 revision (fun m => aset m filePath contents) },
      contents := contents,
      calls := [ServiceCall.fetchFileContentAtRevision filePath revision] }

/-!  General association-list facts used by the cache lemmas. -/

theorem alookup_eq_none_of_not_mem_keys {α β : Type} [DecidableEq α]
    (m : List (α × β)) (q : α) (h : q ∉ m.map Prod.fst) : alookup m q = none := by
  induction m with
  | nil => rfl
  | cons e rest ih =>
    rcases e with ⟨k, v⟩
    simp only [List.map_cons, List.mem_cons] at h
    push_neg at h
    rw [alookup_cons, if_neg (fun hh => h.1 hh.symm)]
    exact ih h.2

theorem mem_keys_of_alookup_some {α β : Type} [DecidableEq α]
    (m : List (α × β)) (q : α) (v : β) (h : alookup m q = some v) :
    q ∈ m.map Prod.fst := by
  by_contra hq
  rw [alookup_eq_none_of_not_mem_keys m q hq] at h
  exact Option.noConfusion h

theorem alookup_isSome_of_mem_keys {α β : Type} [DecidableEq α]
    (m : List (α × β)) (q : α) (h : q ∈ m.map Prod.fst) : (alookup m q).isSome := by
  induction m with
  | nil => simp at h
  | cons e rest ih =>
    rcases e with ⟨k, v⟩
    rw [alookup_cons]
    by_cases hq : k = q
    · simp [hq]
    · simp only [List.map_cons, List.mem_cons] at h
      rcases h with h | h
      · exact absurd h.symm hq
      · rw [if_neg hq]
        exact ih h

/-!  Characterization of one status-map entry's effect. -/

/-- Condition under which a path-level change event is recorded for a
fetched status, given the previously cached status (absence standing
for CLEAN). -/
def eventCond (old : Option StatusCodeId) (s : StatusCodeId) : Bool :=
  match old with
  | some o => o ≠ s
  | none => s ≠ StatusCodeId.clean

/-- Value stored under a path after its fetched status is processed. -/
def newCacheVal (old : Option StatusCodeId) (s : StatusCodeId) : Option StatusCodeId :=
  if eventCond old s then
    (if s = StatusCodeId.clean then none else some s)
  else old

theorem applyStatusEntry_alookup_self (boundary : Path) (acc : StatusUpdate)
    (p : Path) (s : StatusCodeId) :
    alookup (applyStatusEntry boundary acc (p, s)).statusCache p =
      newCacheVal (alookup acc.statusCache p) s := by
  cases hold : alookup acc.statusCache p with
  | none =>
    by_cases hs : s = StatusCodeId.clean
    · subst hs
      simp [applyStatusEntry, hold, newCacheVal, eventCond]
    · simp [applyStatusEntry, hold, hs, newCacheVal, eventCond, aset_alookup_self]
  | some o =>
    by_cases ho : o = s
    · subst ho
      simp [applyStatusEntry, hold, newCacheVal, eventCond]
    · by_cases hs : s = StatusCodeId.clean
      · subst hs
        simp [applyStatusEntry, hold, ho, newCacheVal, eventCond, aerase_alookup_self]
      · simp [applyStatusEntry, hold, ho, hs, newCacheVal, eventCond, aset_alookup_self]

theorem applyStatusEntry_alookup_ne (boundary : Path) (acc : StatusUpdate)
    (p : Path) (s : StatusCodeId) (q : Path) (hq : q ≠ p) :
    alookup (applyStatusEntry boundary acc (p, s)).statusCache q =
      alookup acc.statusCache q := by
  cases hold : alookup acc.statusCache p with
  | none =>
    by_cases hs : s = StatusCodeId.clean
    · simp [applyStatusEntry, hold, hs]
    · simp [applyStatusEntry, hold, hs, aset_alookup_ne _ _ _ _ hq]
  | some o =>
    by_cases ho : o = s
    · simp [applyStatusEntry, hold, ho]
    · by_cases hs : s = StatusCodeId.clean
      · subst hs
        simp [applyStatusEntry, hold, ho, aerase_alookup_ne _ _ _ hq]
      · simp [applyStatusEntry, hold, ho, hs, aset_alookup_ne _ _ _ _ hq]

theorem applyStatusEntry_events (boundary : Path) (acc : StatusUpdate)
    (p : Path) (s : StatusCodeId) :
    (applyStatusEntry boundary acc (p, s)).events =
      acc.events ++
        (if eventCond (alookup acc.statusCache p) s then
          [Event.didChangeStatus p (statusCodeIdToNumber s)]
        else []) := by
  cases hold : alookup acc.statusCache p with
  | none =>
    by_cases hs : s = StatusCodeId.clean
    · subst hs
      simp [applyStatusEntry, hold, eventCond]
    · simp [applyStatusEntry, hold, hs, eventCond]
  | some o =>
    by_cases ho : o = s
    · subst ho
      simp [applyStatusEntry, hold, eventCond]
    · by_cases hs : s = StatusCodeId.clean
      · subst hs
        simp [applyStatusEntry, hold, ho, eventCond]
      · simp [applyStatusEntry, hold, ho, hs, eventCond]

/-!  Characterization of the fold over the fetched status map. -/

theorem applyStatusEntries_alookup_of_none (boundary : Path)
    (entries : List (Path × StatusCodeId)) (acc : StatusUpdate) (q : Path)
    (h : alookup entries q = none) :
    alookup (applyStatusEntries boundary acc entries).statusCache q =
      alookup acc.statusCache q := by
  induction entries generalizing acc with
  | nil => rfl
  | cons e rest ih =>
    rcases e with ⟨k, v⟩
    rw [alookup_cons] at h
    by_cases hk : k = q
    · rw [if_pos hk] at h
      exact Option.noConfusion h
    · rw [if_neg hk] at h
      rw [applyStatusEntries, ih _ h]
      exact applyStatusEntry_alookup_ne boundary acc k v q (fun hh => hk hh.symm)

theorem applyStatusEntries_alookup_of_some (boundary : Path)
    (entries : List (Path × StatusCodeId)) (acc : StatusUpdate) (q : Path) (s : StatusCodeId)
    (hnd : (entries.map Prod.fst).Nodup)
    (h : alookup entries q = some s) :
    alookup (applyStatusEntries boundary acc entries).statusCache q =
      newCacheVal (alookup acc.statusCache q) s := by
  induction entries generalizing acc with
  | nil => exact Option.noConfusion h
  | cons e rest ih =>
    rcases e with ⟨k, v⟩
    rw [List.map_cons, List.nodup_cons] at hnd
    rw [alookup_cons] at h
    by_cases hk : k = q
    · rw [if_pos hk] at h
      injection h with hv
      subst hv
      subst hk
      have hrest : alookup rest k = none :=
        alookup_eq_none_of_not_mem_keys rest k hnd.1
      rw [applyStatusEntries, applyStatusEntries_alookup_of_none boundary rest _ k hrest]
      exact applyStatusEntry_alookup_self boundary acc k v
    · rw [if_neg hk] at h
      rw [applyStatusEntries, ih _ hnd.2 h]
      rw [applyStatusEntry_alookup_ne boundary acc k v q (fun hh => hk hh.symm)]

/-- Path-level change events produced by one status update, as a pure
function of the pre-update cache and the fetched status map. -/
def statusChangeEventsOf (cache : List (Path × StatusCodeId)) :
    List (Path × StatusCodeId) → List Event
  | [] => []
  | e :: rest =>
    (if eventCond (alookup cache e.1) e.2 then
      [Event.didChangeStatus e.1 (statusCodeIdToNumber e.2)]
    else []) ++ statusChangeEventsOf cache rest

theorem statusChangeEventsOf_congr (c1 c2 : List (Path × StatusCodeId))
    (entries : List (Path × StatusCodeId))
    (h : ∀ q, q ∈ entries.map Prod.fst → alookup c1 q = alookup c2 q) :
    statusChangeEventsOf c1 entries = statusChangeEventsOf c2 entries := by
  induction entries with
  | nil => rfl
  | cons e rest ih =>
    rcases e with ⟨k, v⟩
    have hk : alookup c1 k = alookup c2 k := h k (List.mem_cons_self _ _)
    have hrest : statusChangeEventsOf c1 rest = statusChangeEventsOf c2 rest :=
      ih (fun q hq => h q (List.mem_cons_of_mem _ hq))
    show (if eventCond (alookup c1 k) v then
        [Event.didChangeStatus k (statusCodeIdToNumber v)] else []) ++
        statusChangeEventsOf c1 rest =
      (if eventCond (alookup c2 k) v then
        [Event.didChangeStatus k (statusCodeIdToNumber v)] else []) ++
        statusChangeEventsOf c2 rest
    rw [hk, hrest]

theorem applyStatusEntries_events (boundary : Path)
    (entries : List (Path × StatusCodeId)) (acc : StatusUpdate)
    (hnd : (entries.map Prod.fst).Nodup) :
    (applyStatusEntries boundary acc entries).events =
      acc.events ++ statusChangeEventsOf acc.statusCache entries := by
  induction entries generalizing acc with
  | nil =>
    rw [show statusChangeEventsOf acc.statusCache [] = [] from rfl, List.append_nil]
    rfl
  | cons e rest ih =>
    rcases e with ⟨k, v⟩
    rw [List.map_cons, List.nodup_cons] at hnd
    rw [applyStatusEntries, ih _ hnd.2]
    rw [statusChangeEventsOf]
    have hev := applyStatusEntry_events boundary acc k v
    have hcache : statusChangeEventsOf (applyStatusEntry boundary acc (k, v)).statusCache rest =
        statusChangeEventsOf acc.statusCache rest := by
      refine statusChangeEventsOf_congr _ _ rest (fun q hq => ?_)
      have hkq : q ≠ k := fun hh => hnd.1 (hh ▸ hq)
      exact applyStatusEntry_alookup_ne boundary acc k v q hkq
    rw [hev, hcache, List.append_assoc]

theorem mem_statusChangeEventsOf (cache : List (Path × StatusCodeId))
    (entries : List (Path × StatusCodeId)) (p : Path) (n : StatusCodeNumber)
    (hnd : (entries.map Prod.fst).Nodup) :
    Event.didChangeStatus p n ∈ statusChangeEventsOf cache entries ↔
      ∃ s, alookup entries p = some s ∧ eventCond (alookup cache p) s = true ∧
        n = statusCodeIdToNumber s := by
  induction entries with
  | nil =>
    simp [statusChangeEventsOf, alookup]
  | cons e rest ih =>
    rcases e with ⟨k, v⟩
    rw [List.map_cons, List.nodup_cons] at hnd
    rw [statusChangeEventsOf, alookup_cons]
    by_cases hk : k = p
    · subst hk
      have hrest : alookup rest k = none :=
        alookup_eq_none_of_not_mem_keys rest k hnd.1
      constructor
      · intro hmem
        rcases List.mem_append.mp hmem with hmem | hmem
        · by_cases hcond : eventCond (alookup cache k) v = true
          · rw [if_pos hcond] at hmem
            simp only [List.mem_singleton] at hmem
            injection hmem with h1 h2
            exact ⟨v, by simp, hcond, h2⟩
          · rw [if_neg hcond] at hmem
            simp at hmem
        · exfalso
          rcases (ih hnd.2).mp hmem with ⟨s, hks, _⟩
          rw [hrest] at hks
          exact Option.noConfusion hks
      · rintro ⟨s, hks, hcond, hn⟩
        rw [if_pos rfl] at hks
        injection hks with hvs
        subst hvs
        subst hn
        exact List.mem_append.mpr (Or.inl (by rw [if_pos hcond]; simp))
    · rw [if_neg hk]
      constructor
      · intro hmem
        rcases List.mem_append.mp hmem with hmem | hmem
        · by_cases hcond : eventCond (alookup cache k) v = true
          · rw [if_pos hcond] at hmem
            simp only [List.mem_singleton] at hmem
            injection hmem with h1 h2
            exact absurd h1 (fun hh => hk hh.symm)
          · rw [if_neg hcond] at hmem
            simp at hmem
        · exact (ih hnd.2).mp hmem
      · intro hex
        exact List.mem_append.mpr (Or.inr ((ih hnd.2).mpr hex))

theorem statusChangeEventsOf_shape (cache : List (Path × StatusCodeId))
    (entries : List (Path × StatusCodeId)) :
    ∀ e ∈ statusChangeEventsOf cache entries, ∃ p n, e = Event.didChangeStatus p n := by
  induction entries with
  | nil => simp [statusChangeEventsOf]
  | cons en rest ih =>
    intro e he
    rw [statusChangeEventsOf] at he
    rcases List.mem_append.mp he with he | he
    · by_cases hcond : eventCond (alookup cache en.1) en.2 = true
      · rw [if_pos hcond] at he
        simp only [List.mem_singleton] at he
        exact ⟨en.1, statusCodeIdToNumber en.2, he⟩
      · rw [if_neg hcond] at he
        simp at he
    · exact ih e he

theorem coarse_not_mem_statusChangeEventsOf (cache : List (Path × StatusCodeId))
    (entries : List (Path × StatusCodeId)) :
    Event.didChangeStatuses ∉ statusChangeEventsOf cache entries := by
  intro h
  rcases statusChangeEventsOf_shape cache entries _ h with ⟨p, n, hpn⟩
  exact Event.noConfusion hpn

/-!  The eviction pass: it emits no events, touches only the queried
keys, and never inserts into the status cache. -/

theorem evictFold_events (step : StatusUpdate → Path → StatusUpdate)
    (hstep : ∀ a p, (step a p).events = a.events) :
    ∀ (l : List Path) (acc : StatusUpdate), (evictFold step acc l).events = acc.events := by
  intro l
  induction l with
  | nil => intro acc; rfl
  | cons p rest ih =>
    intro acc
    rw [evictFold, ih, hstep]

theorem evictFold_alookup_not_mem (step : StatusUpdate → Path → StatusUpdate)
    (hstep : ∀ a p q, q ≠ p → alookup (step a p).statusCache q = alookup a.statusCache q) :
    ∀ (l : List Path) (acc : StatusUpdate) (q : Path), q ∉ l →
      alookup (evictFold step acc l).statusCache q = alookup acc.statusCache q := by
  intro l
  induction l with
  | nil => intro acc q _; rfl
  | cons p rest ih =>
    intro acc q hq
    have hq1 : q ≠ p := fun hh => hq (hh ▸ List.mem_cons_self _ _)
    have hq2 : q ∉ rest := fun hh => hq (List.mem_cons_of_mem _ hh)
    rw [evictFold, ih _ _ hq2, hstep _ _ _ hq1]

theorem evictFold_alookup_delete_only (step : StatusUpdate → Path → StatusUpdate)
    (hstep : ∀ a p q, alookup (step a p).statusCache q = alookup a.statusCache q ∨
      alookup (step a p).statusCache q = none) :
    ∀ (l : List Path) (acc : StatusUpdate) (q : Path),
      alookup (evictFold step acc l).statusCache q = alookup acc.statusCache q ∨
        alookup (evictFold step acc l).statusCache q = none := by
  intro l
  induction l with
  | nil => intro acc q; exact Or.inl rfl
  | cons p rest ih =>
    intro acc q
    rw [evictFold]
    rcases ih (step acc p) q with h | h
    · rw [h]
      exact hstep acc p q
    · exact Or.inr h

theorem evictOnlyIgnoredStep_events (a : StatusUpdate) (p : Path) :
    (evictOnlyIgnoredStep a p).events = a.events := by
  unfold evictOnlyIgnoredStep
  split <;> rfl

theorem evictAllStatusesStep_events (b : Path) (a : StatusUpdate) (p : Path) :
    (evictAllStatusesStep b a p).events = a.events := rfl

theorem evictDefaultStep_events (b : Path) (a : StatusUpdate) (p : Path) :
    (evictDefaultStep b a p).events = a.events := by
  unfold evictDefaultStep
  split <;> rfl

theorem evictQueriedFiles_events (o : Option HgStatusOption) (b : Path)
    (acc : StatusUpdate) (l : List Path) :
    (evictQueriedFiles o b acc l).events = acc.events := by
  unfold evictQueriedFiles
  match o with
  | some HgStatusOption.onlyIgnored =>
    exact evictFold_events _ evictOnlyIgnoredStep_events l acc
  | some HgStatusOption.allStatuses =>
    exact evictFold_events _ (evictAllStatusesStep_events b) l acc
  | some HgStatusOption.onlyNonIgnored =>
    exact evictFold_events _ (evictDefaultStep_events b) l acc
  | none =>
    exact evictFold_events _ (evictDefaultStep_events b) l acc

theorem evictOnlyIgnoredStep_alookup_ne (a : StatusUpdate) (p q : Path) (hq : q ≠ p) :
    alookup (evictOnlyIgnoredStep a p).statusCache q = alookup a.statusCache q := by
  unfold evictOnlyIgnoredStep
  split
  · exact aerase_alookup_ne _ _ _ hq
  · rfl

theorem evictAllStatusesStep_alookup_ne (b : Path) (a : StatusUpdate) (p q : Path)
    (hq : q ≠ p) :
    alookup (evictAllStatusesStep b a p).statusCache q = alookup a.statusCache q := by
  unfold evictAllStatusesStep
  exact aerase_alookup_ne _ _ _ hq

theorem evictDefaultStep_alookup_ne (b : Path) (a : StatusUpdate) (p q : Path) (hq : q ≠ p) :
    alookup (evictDefaultStep b a p).statusCache q = alookup a.statusCache q := by
  unfold evictDefaultStep
  split
  · exact aerase_alookup_ne _ _ _ hq
  · rfl

theorem evictQueriedFiles_alookup_not_mem (o : Option HgStatusOption) (b : Path)
    (acc : StatusUpdate) (l : List Path) (q : Path) (hq : q ∉ l) :
    alookup (evictQueriedFiles o b acc l).statusCache q = alookup acc.statusCache q := by
  unfold evictQueriedFiles
  match o with
  | some HgStatusOption.onlyIgnored =>
    exact evictFold_alookup_not_mem _
      (fun a p r hr => evictOnlyIgnoredStep_alookup_ne a p r hr) l acc q hq
  | some HgStatusOption.allStatuses =>
    exact evictFold_alookup_not_mem _
      (fun a p r hr => evictAllStatusesStep_alookup_ne b a p r hr) l acc q hq
  | some HgStatusOption.onlyNonIgnored =>
    exact evictFold_alookup_not_mem _
      (fun a p r hr => evictDefaultStep_alookup_ne b a p r hr) l acc q hq
  | none =>
    exact evictFold_alookup_not_mem _
      (fun a p r hr => evictDefaultStep_alookup_ne b a p r hr) l acc q hq

theorem evictOnlyIgnoredStep_delete_only (a : StatusUpdate) (p q : Path) :
    alookup (evictOnlyIgnoredStep a p).statusCache q = alookup a.statusCache q ∨
      alookup (evictOnlyIgnoredStep a p).statusCache q = none := by
  by_cases hq : q = p
  · subst hq
    unfold evictOnlyIgnoredStep
    split
    · exact Or.inr (aerase_alookup_self _ _)
    · exact Or.inl rfl
  · exact Or.inl (evictOnlyIgnoredStep_alookup_ne a p q hq)

theorem evictAllStatusesStep_delete_only (b : Path) (a : StatusUpdate) (p q : Path) :
    alookup (evictAllStatusesStep b a p).statusCache q = alookup a.statusCache q ∨
      alookup (evictAllStatusesStep b a p).statusCache q = none := by
  by_cases hq : q = p
  · subst hq
    exact Or.inr (aerase_alookup_self _ _)
  · exact Or.inl (evictAllStatusesStep_alookup_ne b a p q hq)

theorem evictDefaultStep_delete_only (b : Path) (a : StatusUpdate) (p q : Path) :
    alookup (evictDefaultStep b a p).statusCache q = alookup a.statusCache q ∨
      alookup (evictDefaultStep b a p).statusCache q = none := by
  by_cases hq : q = p
  · subst hq
    unfold evictDefaultStep
    split
    · exact Or.inr (aerase_alookup_self _ _)
    · exact Or.inl rfl
  · exact Or.inl (evictDefaultStep_alookup_ne b a p q hq)

theorem evictQueriedFiles_delete_only (o : Option HgStatusOption) (b : Path)
    (acc : StatusUpdate) (l : List Path) (q : Path) :
    alookup (evictQueriedFiles o b acc l).statusCache q = alookup acc.statusCache q ∨
      alookup (evictQueriedFiles o b acc l).statusCache q = none := by
  unfold evictQueriedFiles
  match o with
  | some HgStatusOption.onlyIgnored =>
    exact evictFold_alookup_delete_only _
      (fun a p r => evictOnlyIgnoredStep_delete_only a p r) l acc q
  | some HgStatusOption.allStatuses =>
    exact evictFold_alookup_delete_only _
      (fun a p r => evictAllStatusesStep_delete_only b a p r) l acc q
  | some HgStatusOption.onlyNonIgnored =>
    exact evictFold_alookup_delete_only _
      (fun a p r => evictDefaultStep_delete_only b a p r) l acc q
  | none =>
    exact evictFold_alookup_delete_only _
      (fun a p r => evictDefaultStep_delete_only b a p r) l acc q

/-!  Top-level characterization of updateStatuses. -/

theorem isEmpty_false_of_ne_nil {α : Type} (l : List α) (h : l ≠ []) : l.isEmpty = false := by
  cases l with
  | nil => exact absurd rfl h
  | cons a t => rfl

theorem newCacheVal_ne_clean (old : Option StatusCodeId) (s : StatusCodeId)
    (h : old ≠ some StatusCodeId.clean) : newCacheVal old s ≠ some StatusCodeId.clean := by
  unfold newCacheVal
  by_cases hc : eventCond old s = true
  · rw [if_pos hc]
    by_cases hs : s = StatusCodeId.clean
    · rw [if_pos hs]
      exact fun hh => Option.noConfusion hh
    · rw [if_neg hs]
      exact fun hh => hs (Option.some.inj hh)
  · rw [if_neg hc]
    exact h

theorem newCacheVal_of_clean (old : Option StatusCodeId)
    (h : old ≠ some StatusCodeId.clean) : newCacheVal old StatusCodeId.clean = none := by
  unfold newCacheVal eventCond
  cases old with
  | none => rfl
  | some o =>
    have ho : ¬o = StatusCodeId.clean := fun hh => h (by rw [hh])
    simp [ho]

theorem mem_queriedFilesOf_alookup_none (pathsInRepo : List Path)
    (response : List (Path × StatusCodeId)) (q : Path)
    (h : q ∈ queriedFilesOf pathsInRepo response) : alookup response q = none := by
  rcases List.mem_filter.mp h with ⟨_, h2⟩
  exact Option.isNone_iff_eq_none.mp (by simpa using h2)

theorem not_mem_queriedFilesOf_of_alookup_some (pathsInRepo : List Path)
    (response : List (Path × StatusCodeId)) (q : Path) (s : StatusCodeId)
    (h : alookup response q = some s) : q ∉ queriedFilesOf pathsInRepo response := by
  intro hmem
  rw [mem_queriedFilesOf_alookup_none pathsInRepo response q hmem] at h
  exact Option.noConfusion h

theorem updateStatuses_calls (st : RepoState) (filePaths : List Path)
    (options : Option HgStatusCommandOptions)
    (fetch : List Path → List (Path × StatusCodeId))
    (h : filePaths.filter (fun p => isPathRelevant st.projectDirectory p) ≠ []) :
    (updateStatuses st filePaths options fetch).calls =
      [ServiceCall.fetchStatuses
        (filePaths.filter (fun p => isPathRelevant st.projectDirectory p)) options] := by
  have hempty := isEmpty_false_of_ne_nil _ h
  simp [updateStatuses, hempty]

theorem updateStatuses_statusMap (st : RepoState) (filePaths : List Path)
    (options : Option HgStatusCommandOptions)
    (fetch : List Path → List (Path × StatusCodeId))
    (h : filePaths.filter (fun p => isPathRelevant st.projectDirectory p) ≠ []) :
    (updateStatuses st filePaths options fetch).statusMap =
      fetch (filePaths.filter (fun p => isPathRelevant st.projectDirectory p)) := by
  have hempty := isEmpty_false_of_ne_nil _ h
  simp [updateStatuses, hempty]

theorem updateStatuses_state_fields (st : RepoState) (filePaths : List Path)
    (options : Option HgStatusCommandOptions)
    (fetch : List Path → List (Path × StatusCodeId)) :
    (updateStatuses st filePaths options fetch).state.projectDirectory =
        st.projectDirectory ∧
      (updateStatuses st filePaths options fetch).state.hgDiffCache = st.hgDiffCache ∧
      (updateStatuses st filePaths options fetch).state.hgDiffCacheFilesUpdating =
        st.hgDiffCacheFilesUpdating ∧
      (updateStatuses st filePaths options fetch).state.hgDiffCacheFilesToClear =
        st.hgDiffCacheFilesToClear := by
  by_cases h : (filePaths.filter (fun p => isPathRelevant st.projectDirectory p)).isEmpty = true
  · simp [updateStatuses, h]
  · simp only [Bool.not_eq_true] at h
    simp [updateStatuses, h]

theorem updateStatuses_events_eq (st : RepoState) (filePaths : List Path)
    (options : Option HgStatusCommandOptions)
    (fetch : List Path → List (Path × StatusCodeId))
    (h : filePaths.filter (fun p => isPathRelevant st.projectDirectory p) ≠ [])
    (hnd : ((fetch (filePaths.filter
      (fun p => isPathRelevant st.projectDirectory p))).map Prod.fst).Nodup) :
    (updateStatuses st filePaths options fetch).events =
      statusChangeEventsOf st.hgStatusCache
        (fetch (filePaths.filter (fun p => isPathRelevant st.projectDirectory p))) ++
        [Event.didChangeStatuses] := by
  have hempty := isEmpty_false_of_ne_nil _ h
  simp only [updateStatuses, hempty, Bool.false_eq_true, if_false]
  rw [evictQueriedFiles_events, applyStatusEntries_events _ _ _ hnd]
  rfl

theorem updateStatuses_cache_of_some (st : RepoState) (filePaths : List Path)
    (options : Option HgStatusCommandOptions)
    (fetch : List Path → List (Path × StatusCodeId))
    (h : filePaths.filter (fun p => isPathRelevant st.projectDirectory p) ≠ [])
    (hnd : ((fetch (filePaths.filter
      (fun p => isPathRelevant st.projectDirectory p))).map Prod.fst).Nodup)
    (q : Path) (s : StatusCodeId)
    (hq : alookup (fetch (filePaths.filter
      (fun p => isPathRelevant st.projectDirectory p))) q = some s) :
    alookup (updateStatuses st filePaths options fetch).state.hgStatusCache q =
      newCacheVal (alookup st.hgStatusCache q) s := by
  have hempty := isEmpty_false_of_ne_nil _ h
  simp only [updateStatuses, hempty, Bool.false_eq_true, if_false]
  have hnq := not_mem_queriedFilesOf_of_alookup_some
    (filePaths.filter (fun p => isPathRelevant st.projectDirectory p))
    (fetch (filePaths.filter (fun p => isPathRelevant st.projectDirectory p))) q s hq
  rw [evictQueriedFiles_alookup_not_mem _ _ _ _ _ hnq]
  exact applyStatusEntries_alookup_of_some _ _ _ _ _ hnd hq

theorem updateStatuses_cache_of_none (st : RepoState) (filePaths : List Path)
    (options : Option HgStatusCommandOptions)
    (fetch : List Path → List (Path × StatusCodeId))
    (h : filePaths.filter (fun p => isPathRelevant st.projectDirectory p) ≠ [])
    (q : Path)
    (hq : alookup (fetch (filePaths.filter
      (fun p => isPathRelevant st.projectDirectory p))) q = none)
    (hnq : q ∉ queriedFilesOf
      (filePaths.filter (fun p => isPathRelevant st.projectDirectory p))
      (fetch (filePaths.filter (fun p => isPathRelevant st.projectDirectory p)))) :
    alookup (updateStatuses st filePaths options fetch).state.hgStatusCache q =
      alookup st.hgStatusCache q := by
  have hempty := isEmpty_false_of_ne_nil _ h
  simp only [updateStatuses, hempty, Bool.false_eq_true, if_false]
  rw [evictQueriedFiles_alookup_not_mem _ _ _ _ _ hnq]
  exact applyStatusEntries_alookup_of_none _ _ _ _ hq

theorem updateStatuses_cache_no_clean (st : RepoState) (filePaths : List Path)
    (options : Option HgStatusCommandOptions)
    (fetch : List Path → List (Path × StatusCodeId))
    (hnd : ((fetch (filePaths.filter
      (fun p => isPathRelevant st.projectDirectory p))).map Prod.fst).Nodup)
    (hinv : ∀ q, alookup st.hgStatusCache q ≠ some StatusCodeId.clean) (q : Path) :
    alookup (updateStatuses st filePaths options fetch).state.hgStatusCache q ≠
      some StatusCodeId.clean := by
  by_cases h : (filePaths.filter (fun p => isPathRelevant st.projectDirectory p)).isEmpty = true
  · simp only [updateStatuses, h, if_true]
    exact hinv q
  · simp only [Bool.not_eq_true] at h
    simp only [updateStatuses, h, Bool.false_eq_true, if_false]
    have hphase1 : alookup (applyStatusEntries st.projectDirectory.dropLast
        { statusCache := st.hgStatusCache, dirCache := st.modifiedDirectoryCache,
          events := [] }
        (fetch (filePaths.filter (fun p => isPathRelevant st.projectDirectory p)))).statusCache
          q ≠ some StatusCodeId.clean := by
      cases hq : alookup (fetch (filePaths.filter
        (fun p => isPathRelevant st.projectDirectory p))) q with
      | none =>
        rw [applyStatusEntries_alookup_of_none _ _ _ _ hq]
        exact hinv q
      | some s =>
        rw [applyStatusEntries_alookup_of_some _ _ _ _ _ hnd hq]
        exact newCacheVal_ne_clean _ _ (hinv q)
    rcases evictQueriedFiles_delete_only (getStatusOption options)
      st.projectDirectory.dropLast _
      (queriedFilesOf (filePaths.filter (fun p => isPathRelevant st.projectDirectory p))
        (fetch (filePaths.filter (fun p => isPathRelevant st.projectDirectory p)))) q
      with hcase | hcase
    · rw [hcase]
      exact hphase1
    · rw [hcase]
      exact fun hh => Option.noConfusion hh

/-!  Characterization of the getStatuses scan and result-map merge. -/

theorem getStatusesScan_misses (cache : List (Path × StatusCodeId))
    (pred : StatusCodeId → Bool) (paths : List Path) :
    ∀ acc : GetStatusesScanAcc,
      (getStatusesScan cache pred acc paths).pathsWithCacheMiss =
        acc.pathsWithCacheMiss ++ paths.filter (fun p => (alookup cache p).isNone) := by
  induction paths with
  | nil => intro acc; simp [getStatusesScan]
  | cons p rest ih =>
    intro acc
    cases hp : alookup cache p with
    | some statusId =>
      have hfilt : ((alookup cache p).isNone) = false := by simp [hp]
      rw [List.filter_cons]
      simp only [hfilt, Bool.false_eq_true, if_false]
      simp only [getStatusesScan, hp]
      by_cases hpred : pred statusId = true
      · rw [if_pos hpred, ih]
      · rw [if_neg hpred, ih]
    | none =>
      have hfilt : ((alookup cache p).isNone) = true := by simp [hp]
      rw [List.filter_cons]
      simp only [hfilt, if_true]
      simp only [getStatusesScan, hp]
      rw [ih]
      simp

theorem getStatusesScan_map_not_mem (cache : List (Path × StatusCodeId))
    (pred : StatusCodeId → Bool) (paths : List Path) (q : Path) (hq : q ∉ paths) :
    ∀ acc : GetStatusesScanAcc,
      alookup (getStatusesScan cache pred acc paths).statusMap q =
        alookup acc.statusMap q := by
  induction paths with
  | nil => intro acc; rfl
  | cons p rest ih =>
    intro acc
    have hqp : q ≠ p := fun hh => hq (hh ▸ List.mem_cons_self _ _)
    have hqrest : q ∉ rest := fun hh => hq (List.mem_cons_of_mem _ hh)
    cases hp : alookup cache p with
    | some statusId =>
      simp only [getStatusesScan, hp]
      by_cases hpred : pred statusId = true
      · rw [if_pos hpred, ih hqrest]
        exact aset_alookup_ne _ _ _ _ hqp
      · rw [if_neg hpred, ih hqrest]
    | none =>
      simp only [getStatusesScan, hp]
      rw [ih hqrest]

theorem getStatusesScan_map_cache_none (cache : List (Path × StatusCodeId))
    (pred : StatusCodeId → Bool) (paths : List Path) (q : Path)
    (hq : alookup cache q = none) :
    ∀ acc : GetStatusesScanAcc,
      alookup (getStatusesScan cache pred acc paths).statusMap q =
        alookup acc.statusMap q := by
  induction paths with
  | nil => intro acc; rfl
  | cons p rest ih =>
    intro acc
    cases hp : alookup cache p with
    | some statusId =>
      have hqp : q ≠ p := fun hh => by
        rw [hh, hp] at hq
        exact Option.noConfusion hq
      simp only [getStatusesScan, hp]
      by_cases hpred : pred statusId = true
      · rw [if_pos hpred, ih]
        exact aset_alookup_ne _ _ _ _ hqp
      · rw [if_neg hpred, ih]
    | none =>
      simp only [getStatusesScan, hp]
      rw [ih]

theorem getStatusesScan_map_hit (cache : List (Path × StatusCodeId))
    (pred : StatusCodeId → Bool) (paths : List Path) (q : Path) (s : StatusCodeId)
    (hq : alookup cache q = some s) (hpred : pred s = true) :
    ∀ acc : GetStatusesScanAcc, q ∈ paths →
      alookup (getStatusesScan cache pred acc paths).statusMap q =
        some (statusCodeIdToNumber s) := by
  induction paths with
  | nil =>
    intro acc hmem
    simp at hmem
  | cons p rest ih =>
    intro acc hmem
    by_cases hrest : q ∈ rest
    · cases hp : alookup cache p with
      | some statusId =>
        simp only [getStatusesScan, hp]
        by_cases hpredp : pred statusId = true
        · rw [if_pos hpredp]
          exact ih _ hrest
        · rw [if_neg hpredp]
          exact ih _ hrest
      | none =>
        simp only [getStatusesScan, hp]
        exact ih _ hrest
    · have hqp : q = p := by
        rcases List.mem_cons.mp hmem with h | h
        · exact h
        · exact absurd h hrest
      subst hqp
      simp only [getStatusesScan, hq, hpred, if_true]
      rw [getStatusesScan_map_not_mem cache pred rest q hrest]
      exact aset_alookup_self _ _ _

theorem getStatusesScan_map_skip (cache : List (Path × StatusCodeId))
    (pred : StatusCodeId → Bool) (paths : List Path) (q : Path) (s : StatusCodeId)
    (hq : alookup cache q = some s) (hpred : pred s = false) :
    ∀ acc : GetStatusesScanAcc,
      alookup (getStatusesScan cache pred acc paths).statusMap q =
        alookup acc.statusMap q := by
  induction paths with
  | nil => intro acc; rfl
  | cons p rest ih =>
    intro acc
    by_cases hqp : q = p
    · subst hqp
      simp only [getStatusesScan, hq, hpred, Bool.false_eq_true, if_false]
      exact ih _
    · cases hp : alookup cache p with
      | some statusId =>
        simp only [getStatusesScan, hp]
        by_cases hpredp : pred statusId = true
        · rw [if_pos hpredp, ih]
          exact aset_alookup_ne _ _ _ _ hqp
        · rw [if_neg hpredp, ih]
      | none =>
        simp only [getStatusesScan, hp]
        rw [ih]

theorem setStatusNumbers_alookup_none (m : List (Path × StatusCodeNumber))
    (entries : List (Path × StatusCodeId)) (q : Path)
    (hq : alookup entries q = none) :
    alookup (setStatusNumbers m entries) q = alookup m q := by
  induction entries generalizing m with
  | nil => rfl
  | cons e rest ih =>
    rcases e with ⟨k, v⟩
    rw [alookup_cons] at hq
    by_cases hk : k = q
    · rw [if_pos hk] at hq
      exact Option.noConfusion hq
    · rw [if_neg hk] at hq
      rw [setStatusNumbers, ih _ hq]
      exact aset_alookup_ne _ _ _ _ (fun hh => hk hh.symm)

theorem setStatusNumbers_alookup_some (m : List (Path × StatusCodeNumber))
    (entries : List (Path × StatusCodeId)) (q : Path) (s : StatusCodeId)
    (hnd : (entries.map Prod.fst).Nodup)
    (hq : alookup entries q = some s) :
    alookup (setStatusNumbers m entries) q = some (statusCodeIdToNumber s) := by
  induction entries generalizing m with
  | nil => exact Option.noConfusion hq
  | cons e rest ih =>
    rcases e with ⟨k, v⟩
    rw [List.map_cons, List.nodup_cons] at hnd
    rw [alookup_cons] at hq
    by_cases hk : k = q
    · rw [if_pos hk] at hq
      injection hq with hv
      subst hv
      subst hk
      rw [setStatusNumbers,
        setStatusNumbers_alookup_none _ rest k (alookup_eq_none_of_not_mem_keys rest k hnd.1)]
      exact aset_alookup_self _ _ _
    · rw [if_neg hk] at hq
      rw [setStatusNumbers]
      exact ih _ hnd.2 hq

/-!  Characterization of updateDiffInfo's opening filter and cleanup. -/

/-- Paths newly marked in-flight by the opening filter of
updateDiffInfo, given the in-flight set at entry. -/
def freshPaths (projectDirectory : Path) (u : List Path) : List Path → List Path
  | [] => []
  | p :: rest =>
    if ¬ isPathRelevant projectDirectory p then freshPaths projectDirectory u rest
    else if p ∈ u then freshPaths projectDirectory u rest
    else p :: freshPaths projectDirectory (u ++ [p]) rest

theorem computePathsToFetchAux_eq (projectDirectory : Path) (l : List Path) :
    ∀ (u f : List Path),
      computePathsToFetchAux projectDirectory ⟨u, f⟩ l =
        ⟨u ++ freshPaths projectDirectory u l, f ++ freshPaths projectDirectory u l⟩ := by
  induction l with
  | nil => intro u f; simp [computePathsToFetchAux, freshPaths]
  | cons p rest ih =>
    intro u f
    rw [computePathsToFetchAux, freshPaths]
    by_cases hrel : isPathRelevant projectDirectory p = true
    · by_cases hu : p ∈ u
      · simp only [if_neg (not_not_intro hrel), if_pos hu]
        exact ih u f
      · simp only [if_neg (not_not_intro hrel), if_neg hu]
        rw [ih (u ++ [p]) (f ++ [p])]
        simp
    · simp only [if_pos (hrel : ¬isPathRelevant projectDirectory p = true)]
      exact ih u f

theorem mem_freshPaths_not_mem (projectDirectory : Path) (l : List Path) :
    ∀ (u : List Path) (q : Path), q ∈ freshPaths projectDirectory u l → q ∉ u := by
  induction l with
  | nil => intro u q h; simp [freshPaths] at h
  | cons p rest ih =>
    intro u q h
    rw [freshPaths] at h
    by_cases hrel : isPathRelevant projectDirectory p = true
    · by_cases hu : p ∈ u
      · rw [if_neg (by simp [hrel] : ¬¬isPathRelevant projectDirectory p = true),
          if_pos hu] at h
        exact ih u q h
      · rw [if_neg (by simp [hrel] : ¬¬isPathRelevant projectDirectory p = true),
          if_neg hu] at h
        rcases List.mem_cons.mp h with hq | hq
        · exact hq ▸ hu
        · intro hqu
          exact ih (u ++ [p]) q hq (by simp [hqu])
    · simp only [Bool.not_eq_true] at hrel
      rw [if_pos (by simp [hrel] : ¬isPathRelevant projectDirectory p = true)] at h
      exact ih u q h

theorem mem_foldl_filter_remove (l : List Path) :
    ∀ (s0 : List Path) (q : Path),
      q ∈ l.foldl (fun s p => s.filter (fun x => x ≠ p)) s0 ↔ q ∈ s0 ∧ q ∉ l := by
  induction l with
  | nil => intro s0 q; simp
  | cons p rest ih =>
    intro s0 q
    rw [List.foldl_cons, ih]
    rw [List.mem_filter]
    constructor
    · rintro ⟨⟨h1, h2⟩, h3⟩
      have hqp : q ≠ p := by simpa using h2
      refine ⟨h1, fun hh => ?_⟩
      rcases List.mem_cons.mp hh with hh | hh
      · exact hqp hh
      · exact h3 hh
    · rintro ⟨h1, h2⟩
      have hqp : q ≠ p := fun hh => h2 (hh ▸ List.mem_cons_self _ _)
      exact ⟨⟨h1, by simpa using hqp⟩, fun hh => h2 (List.mem_cons_of_mem _ hh)⟩

theorem eraseAllKeys_alookup (toClear : List Path) :
    ∀ (c : List (Path × DiffInfo)) (q : Path),
      alookup (eraseAllKeys c toClear) q =
        if q ∈ toClear then none else alookup c q := by
  induction toClear with
  | nil => intro c q; simp [eraseAllKeys]
  | cons p rest ih =>
    intro c q
    rw [eraseAllKeys, ih]
    by_cases hrest : q ∈ rest
    · rw [if_pos hrest, if_pos (List.mem_cons_of_mem _ hrest)]
    · rw [if_neg hrest]
      by_cases hqp : q = p
      · subst hqp
        rw [if_pos (List.mem_cons_self _ _)]
        exact aerase_alookup_self _ _
      · rw [if_neg (fun hh => by
          rcases List.mem_cons.mp hh with hh | hh
          · exact hqp hh
          · exact hrest hh)]
        exact aerase_alookup_ne _ _ _ hqp

/-!  Least-recently-used cache facts. -/

theorem filter_ne_length_lt {β : Type} (m : List (String × β)) (k : String) (v : β)
    (h : alookup m k = some v) :
    (m.filter (fun e => e.1 ≠ k)).length < m.length := by
  induction m with
  | nil => exact Option.noConfusion h
  | cons e rest ih =>
    rcases e with ⟨k1, v1⟩
    rw [alookup_cons] at h
    by_cases hk : k1 = k
    · have h1 : (decide ((k1, v1).1 ≠ k)) = false := by simp [hk]
      rw [List.filter_cons, h1]
      simp only [Bool.false_eq_true, if_false, List.length_cons]
      exact Nat.lt_succ_of_le (List.length_filter_le _ _)
    · rw [if_neg hk] at h
      have h1 : (decide ((k1, v1).1 ≠ k)) = true := by simp [hk]
      rw [List.filter_cons, h1]
      simp only [if_true, List.length_cons]
      exact Nat.succ_lt_succ (ih h)

theorem lruGet_fst {β : Type} (c : LRU β) (k : String) :
    (lruGet c k).1 = alookup c.entries k := by
  unfold lruGet
  cases h : alookup c.entries k <;> rfl

theorem lruGet_max {β : Type} (c : LRU β) (k : String) :
    (lruGet c k).2.max = c.max := by
  unfold lruGet
  cases h : alookup c.entries k <;> rfl

theorem lruGet_entries_alookup {β : Type} (c : LRU β) (k q : String) :
    alookup (lruGet c k).2.entries q = alookup c.entries q := by
  unfold lruGet
  cases h : alookup c.entries k with
  | none => rfl
  | some v =>
    by_cases hq : q = k
    · subst hq
      simpa [alookup_cons] using h.symm
    · show alookup ((k, v) :: c.entries.filter (fun e => e.1 ≠ k)) q = alookup c.entries q
      rw [alookup_cons, if_neg (fun hh => hq hh.symm)]
      exact alookup_filter_ne _ _ _ hq

theorem lruGet_length_le {β : Type} (c : LRU β) (k : String) :
    (lruGet c k).2.entries.length ≤ c.entries.length := by
  unfold lruGet
  cases h : alookup c.entries k with
  | none => exact Nat.le_refl _
  | some v =>
    show ((k, v) :: c.entries.filter (fun e => e.1 ≠ k)).length ≤ c.entries.length
    rw [List.length_cons]
    exact filter_ne_length_lt c.entries k v h

theorem lruSet_max {β : Type} (c : LRU β) (k : String) (v : β) :
    (lruSet c k v).max = c.max := rfl

theorem lruSet_length_le {β : Type} (c : LRU β) (k : String) (v : β) :
    (lruSet c k v).entries.length ≤ c.max := by
  unfold lruSet
  simp [List.length_take]

theorem lruSet_alookup_self {β : Type} (c : LRU β) (k : String) (v : β)
    (h : 1 ≤ c.max) : alookup (lruSet c k v).entries k = some v := by
  unfold lruSet
  rcases Nat.exists_eq_add_of_le h with ⟨m, hm⟩
  rw [hm]
  show alookup (List.take (1 + m) ((k, v) :: c.entries.filter (fun e => e.1 ≠ k))) k = some v
  rw [Nat.add_comm, List.take_succ_cons, alookup_cons, if_pos rfl]

theorem lruModify_max {β : Type} (c : LRU β) (k : String) (f : β → β) :
    (lruModify c k f).max = c.max := rfl

theorem lruModify_length {β : Type} (c : LRU β) (k : String) (f : β → β) :
    (lruModify c k f).entries.length = c.entries.length := by
  unfold lruModify
  simp

theorem alookup_map_modify {β : Type} (l : List (String × β)) (k : String) (f : β → β) :
    alookup (l.map (fun e => if e.1 = k then (k, f e.2) else e)) k =
      (alookup l k).map f := by
  induction l with
  | nil => rfl
  | cons e rest ih =>
    rcases e with ⟨k1, v1⟩
    by_cases hk : k1 = k
    · subst hk
      simp [alookup_cons]
    · simp only [List.map_cons, hk, if_false]
      rw [alookup_cons, alookup_cons, if_neg hk, if_neg hk]
      exact ih

theorem alookup_map_modify_ne {β : Type} (l : List (String × β)) (k : String) (f : β → β)
    (q : String) (hq : q ≠ k) :
    alookup (l.map (fun e => if e.1 = k then (k, f e.2) else e)) q = alookup l q := by
  induction l with
  | nil => rfl
  | cons e rest ih =>
    rcases e with ⟨k1, v1⟩
    by_cases hk : k1 = k
    · subst hk
      simp only [List.map_cons, if_true]
      rw [alookup_cons, alookup_cons, if_neg (fun hh => hq hh.symm),
        if_neg (fun hh => hq hh.symm)]
      exact ih
    · simp only [List.map_cons, hk, if_false]
      rw [alookup_cons, alookup_cons]
      by_cases hq1 : k1 = q
      · rw [if_pos hq1, if_pos hq1]
      · rw [if_neg hq1, if_neg hq1]
        exact ih

theorem lruModify_alookup_self {β : Type} (c : LRU β) (k : String) (f : β → β) :
    alookup (lruModify c k f).entries k = (alookup c.entries k).map f := by
  show alookup (c.entries.map (fun e => if e.1 = k then (k, f e.2) else e)) k =
    (alookup c.entries k).map f
  exact alookup_map_modify c.entries k f

theorem lruModify_alookup_ne {β : Type} (c : LRU β) (k : String) (f : β → β) (q : String)
    (hq : q ≠ k) :
    alookup (lruModify c k f).entries q = alookup c.entries q := by
  show alookup (c.entries.map (fun e => if e.1 = k then (k, f e.2) else e)) q =
    alookup c.entries q
  exact alookup_map_modify_ne c.entries k f q hq

/-!  Shared helper facts for the claim theorems. -/

theorem filter_isPathRelevant_idem (projectDirectory : Path) (l : List Path) :
    (l.filter (fun p => isPathRelevant projectDirectory p)).filter
        (fun p => isPathRelevant projectDirectory p) =
      l.filter (fun p => isPathRelevant projectDirectory p) :=
  List.filter_eq_self.mpr (fun _x hx => (List.mem_filter.mp hx).2)

/-!  Claim theorems. -/

/-- Claim C10: for a null path argument every synchronous cache-only getter
returns its zero-valued default: getCachedPathStatus and
getDirectoryStatus return CLEAN, getDiffStats returns zero added and
deleted counts, and getLineDiffs returns the empty list.  The getters
are pure functions of the state, so no cache is mutated. -/
theorem claim_c10_null_getters (st : RepoState) :
    getCachedPathStatus st none = StatusCodeNumber.clean ∧
    getDirectoryStatus st none = StatusCodeNumber.clean ∧
    getDiffStats st none = (0, 0) ∧
    getLineDiffs st none = [] :=
  ⟨rfl, rfl, rfl, rfl⟩

/-- Claim C8: destroy is idempotent: after the first call the flag reads
true, and a second call returns the state unchanged with no further
events or disposals. -/
theorem claim_c8_destroy_idempotent (st : RepoState) :
    (destroy st).1.isDestroyed = true ∧
    destroy (destroy st).1 = ((destroy st).1, []) := by
  by_cases h : st.isDestroyed = true
  · have h1 : destroy st = (st, []) := by
      unfold destroy
      rw [if_pos h]
    rw [h1]
    refine ⟨h, ?_⟩
    unfold destroy
    rw [if_pos h]
  · have h1 : destroy st =
      ({ st with
          isDestroyed := true,
          editorSubscriptions := [],
          revisionIdToFileChanges := lruReset st.revisionIdToFileChanges,
          fileContentsAtRevisionIds := lruReset st.fileContentsAtRevisionIds },
        (st.editorSubscriptions.map Event.disposeEditorSubscription) ++
          [Event.didDestroy, Event.disposeSubscriptions]) := by
      unfold destroy
      rw [if_neg h]
    rw [h1]
    refine ⟨rfl, ?_⟩
    unfold destroy
    rw [if_pos rfl]

/-- Claim C7 counterexample: clearClientCache, the completion handler of
commit and amend, leaves the modified-directory index untouched, so a
state whose index holds one directory keeps it after a commit
completes, refuting that the whole cache including the
modified-directory index is reset to empty. -/
theorem claim_c7_counterexample :
    (commitCompleted
      { initialState ["r"] with modifiedDirectoryCache := [(["r"], 1)] }
      ).1.modifiedDirectoryCache = [(["r"], 1)] ∧
    ([(["r"], 1)] : List (Path × Nat)) ≠ [] := by
  refine ⟨rfl, ?_⟩
  intro h
  exact List.noConfusion h

/-- Claim C7 amended: on completion of a commit or amend operation the status
cache and the diff cache are reset to empty and one coarse
did-change-statuses event is emitted; the modified-directory index is
left unchanged. -/
theorem claim_c7_commit_clears (st : RepoState) :
    (commitCompleted st).1.hgStatusCache = [] ∧
    (commitCompleted st).1.hgDiffCache = [] ∧
    (commitCompleted st).1.modifiedDirectoryCache = st.modifiedDirectoryCache ∧
    (commitCompleted st).2 = [Event.didChangeStatuses] ∧
    amendCompleted st = commitCompleted st :=
  ⟨rfl, rfl, rfl, rfl, rfl⟩

/-- Claim C5: failing input for the modified-directory invariant.  A file
fetched as MODIFIED bumps its ancestor directory; when a later fetch
returns MISSING for the same file the transition out of MODIFIED makes
no decrement (updateStatuses removes parent directories only on a
transition to CLEAN), so the directory still reports MODIFIED although
the cache holds no MODIFIED path any more. -/
theorem claim_c5_directory_index_bug :
    (updateStatuses
        ((updateStatuses (initialState ["r", "p"]) [["r", "p", "a"]]
          (some { hgStatusOption := HgStatusOption.allStatuses })
          (fun _ => [(["r", "p", "a"], StatusCodeId.modified)])).state)
        [["r", "p", "a"]]
        (some { hgStatusOption := HgStatusOption.allStatuses })
        (fun _ => [(["r", "p", "a"], StatusCodeId.missing)])).state.hgStatusCache =
      [(["r", "p", "a"], StatusCodeId.missing)] ∧
    getDirectoryStatus
      (updateStatuses
        ((updateStatuses (initialState ["r", "p"]) [["r", "p", "a"]]
          (some { hgStatusOption := HgStatusOption.allStatuses })
          (fun _ => [(["r", "p", "a"], StatusCodeId.modified)])).state)
        [["r", "p", "a"]]
        (some { hgStatusOption := HgStatusOption.allStatuses })
        (fun _ => [(["r", "p", "a"], StatusCodeId.missing)])).state
      (some ["r", "p"]) = StatusCodeNumber.modified ∧
    StatusCodeId.missing ≠ StatusCodeId.modified := by
  refine ⟨by decide, by decide, by decide⟩

/-- Claim C1 counterexample: with exactly one relevant changed path — a count
equal to the threshold MAX_INDIVIDUAL_CHANGED_PATHS = 1 — the run does
the targeted branch: one status fetch for exactly that path with the
all-statuses option, and no whole-tree only-non-ignored fetch, refuting
that a count at the threshold triggers the full refresh. -/
theorem claim_c1_counterexample :
    (updateChangedPaths (initialState ["root", "proj"]) [["root", "proj", "a"]]
      (fun _ => []) (fun _ => none)).calls =
      [ServiceCall.fetchStatuses [["root", "proj", "a"]]
        (some { hgStatusOption := HgStatusOption.allStatuses })] ∧
    MAX_INDIVIDUAL_CHANGED_PATHS = 1 := by
  refine ⟨by decide, rfl⟩

/-- Claim C1 amended: with no relevant changed path the run is a no-op; with
a nonzero count at or below the threshold the targeted refresh runs —
one status fetch for exactly the relevant paths with the all-statuses
option followed by the diff re-fetch of those of them present in the
diff cache; with a count above the threshold the full refresh
(refreshStatusesOfAllFilesInCache) runs instead. -/
theorem claim_c1_threshold (st : RepoState) (changedPaths : List Path)
    (fs : List Path → List (Path × StatusCodeId))
    (fd : List Path → Option (List (Path × DiffInfo))) :
    (changedPaths.filter (fun p => isPathRelevant st.projectDirectory p) = [] →
      updateChangedPaths st changedPaths fs fd = { state := st, events := [], calls := [] }) ∧
    (changedPaths.filter (fun p => isPathRelevant st.projectDirectory p) ≠ [] →
      (changedPaths.filter (fun p => isPathRelevant st.projectDirectory p)).length ≤
        MAX_INDIVIDUAL_CHANGED_PATHS →
      (updateChangedPaths st changedPaths fs fd).calls =
        ServiceCall.fetchStatuses
            (changedPaths.filter (fun p => isPathRelevant st.projectDirectory p))
            (some { hgStatusOption := HgStatusOption.allStatuses }) ::
          (updateDiffInfo
            (updateStatuses st
              (changedPaths.filter (fun p => isPathRelevant st.projectDirectory p))
              (some { hgStatusOption := HgStatusOption.allStatuses }) fs).state
            ((changedPaths.filter (fun p => isPathRelevant st.projectDirectory p)).filter
              (fun p =>
                (alookup (updateStatuses st
                  (changedPaths.filter (fun p => isPathRelevant st.projectDirectory p))
                  (some { hgStatusOption := HgStatusOption.allStatuses })
                  fs).state.hgDiffCache p).isSome))
            fd).calls) ∧
    (MAX_INDIVIDUAL_CHANGED_PATHS <
        (changedPaths.filter (fun p => isPathRelevant st.projectDirectory p)).length →
      updateChangedPaths st changedPaths fs fd =
        refreshStatusesOfAllFilesInCache st fs fd) := by
  refine ⟨?_, ?_, ?_⟩
  · intro h
    have he : (changedPaths.filter
        (fun p => isPathRelevant st.projectDirectory p)).isEmpty = true := by
      rw [h]
      rfl
    simp only [updateChangedPaths, he, if_true]
  · intro hne hle
    have hempty := isEmpty_false_of_ne_nil _ hne
    simp only [updateChangedPaths, hempty, Bool.false_eq_true, if_false, if_pos hle]
    have hfilt := filter_isPathRelevant_idem st.projectDirectory changedPaths
    have hne2 : (changedPaths.filter
          (fun p => isPathRelevant st.projectDirectory p)).filter
          (fun p => isPathRelevant st.projectDirectory p) ≠ [] := by
      rw [hfilt]
      exact hne
    rw [updateStatuses_calls st _ _ fs hne2, hfilt]
    rfl
  · intro hgt
    have hne : changedPaths.filter (fun p => isPathRelevant st.projectDirectory p) ≠ [] := by
      intro h
      rw [h] at hgt
      exact Nat.not_lt_zero _ hgt
    have hempty := isEmpty_false_of_ne_nil _ hne
    simp only [updateChangedPaths, hempty, Bool.false_eq_true, if_false,
      if_neg (Nat.not_le.mpr hgt)]

/-- Claim C1 witness: the amended theorem applied at a state with no relevant
changed path. -/
theorem claim_c1_threshold_witness :
    updateChangedPaths (initialState ["r"]) [["x"]] (fun _ => []) (fun _ => none) =
      { state := initialState ["r"], events := [], calls := [] } :=
  (claim_c1_threshold (initialState ["r"]) [["x"]] (fun _ => []) (fun _ => none)).1
    (by decide)

/-- Claim C2 counterexample: a path cached as MODIFIED and queried with the
default option whose backend response is empty is evicted from the
status cache — its cached status changes from MODIFIED to absent — yet
the run emits no path-level did-change-status event, only the coarse
event, refuting the if-and-only-if over removed entries. -/
theorem claim_c2_counterexample :
    (updateStatuses
      { initialState ["r"] with hgStatusCache := [(["r", "a"], StatusCodeId.modified)] }
      [["r", "a"]] none (fun _ => [])).events = [Event.didChangeStatuses] ∧
    alookup (updateStatuses
      { initialState ["r"] with hgStatusCache := [(["r", "a"], StatusCodeId.modified)] }
      [["r", "a"]] none (fun _ => [])).state.hgStatusCache ["r", "a"] = none ∧
    alookup ([(["r", "a"], StatusCodeId.modified)] : List (Path × StatusCodeId))
      ["r", "a"] = some StatusCodeId.modified := by
  refine ⟨by decide, by decide, by decide⟩

/-- Claim C2 amended: for a run of updateStatuses with at least one relevant
path and a duplicate-free response key set, a path-level
did-change-status event is emitted exactly for the paths of the backend
response whose fetched status differs from the cached one (absence
standing for CLEAN); queried paths evicted because they are absent from
the response get no path-level event; exactly one coarse
did-change-statuses event is emitted and it comes last, after every
path-level event and after all cache mutations. -/
theorem claim_c2_event_characterization (st : RepoState) (filePaths : List Path)
    (options : Option HgStatusCommandOptions)
    (fetch : List Path → List (Path × StatusCodeId))
    (hne : filePaths.filter (fun p => isPathRelevant st.projectDirectory p) ≠ [])
    (hnd : ((fetch (filePaths.filter
      (fun p => isPathRelevant st.projectDirectory p))).map Prod.fst).Nodup) :
    (∀ p n, Event.didChangeStatus p n ∈ (updateStatuses st filePaths options fetch).events ↔
      ∃ s, alookup (fetch (filePaths.filter
          (fun p => isPathRelevant st.projectDirectory p))) p = some s ∧
        eventCond (alookup st.hgStatusCache p) s = true ∧
        n = statusCodeIdToNumber s) ∧
    (updateStatuses st filePaths options fetch).events.count Event.didChangeStatuses = 1 ∧
    (updateStatuses st filePaths options fetch).events.getLast? =
      some Event.didChangeStatuses := by
  rw [updateStatuses_events_eq st filePaths options fetch hne hnd]
  refine ⟨?_, ?_, ?_⟩
  · intro p n
    constructor
    · intro hmem
      rcases List.mem_append.mp hmem with hmem | hmem
      · exact (mem_statusChangeEventsOf _ _ p n hnd).mp hmem
      · simp only [List.mem_singleton] at hmem
        exact Event.noConfusion hmem
    · intro hex
      exact List.mem_append.mpr
        (Or.inl ((mem_statusChangeEventsOf _ _ p n hnd).mpr hex))
  · rw [List.count_append,
      List.count_eq_zero.mpr (coarse_not_mem_statusChangeEventsOf _ _)]
    simp
  · rw [List.getLast?_concat]

/-- Claim C2 witness: the amended theorem applied at a concrete state, with a
response that changes one path. -/
theorem claim_c2_event_characterization_witness :
    (Event.didChangeStatus ["r", "a"] StatusCodeNumber.modified ∈
      (updateStatuses (initialState ["r"]) [["r", "a"]] none
        (fun _ => [(["r", "a"], StatusCodeId.modified)])).events) ∧
    (updateStatuses (initialState ["r"]) [["r", "a"]] none
      (fun _ => [(["r", "a"], StatusCodeId.modified)])).events.count
        Event.didChangeStatuses = 1 := by
  have h := claim_c2_event_characterization (initialState ["r"]) [["r", "a"]] none
    (fun _ => [(["r", "a"], StatusCodeId.modified)]) (by decide) (by decide)
  refine ⟨?_, h.2.1⟩
  exact (h.1 ["r", "a"] StatusCodeNumber.modified).mpr
    ⟨StatusCodeId.modified, by decide, by decide, by decide⟩

/-- Claim C4: across a run of updateStatuses with a duplicate-free response
key set, starting from a cache holding no CLEAN entry, the cache never
holds a CLEAN entry afterwards; moreover a path fetched as CLEAN in the
response is absent from the cache after the run — its existing entry is
deleted and none is created — so absence from the cache stands for
CLEAN. -/
theorem claim_c4_clean_never_stored (st : RepoState) (filePaths : List Path)
    (options : Option HgStatusCommandOptions)
    (fetch : List Path → List (Path × StatusCodeId))
    (hnd : ((fetch (filePaths.filter
      (fun p => isPathRelevant st.projectDirectory p))).map Prod.fst).Nodup)
    (hinv : ∀ q, alookup st.hgStatusCache q ≠ some StatusCodeId.clean) :
    (∀ q, alookup (updateStatuses st filePaths options fetch).state.hgStatusCache q ≠
      some StatusCodeId.clean) ∧
    (filePaths.filter (fun p => isPathRelevant st.projectDirectory p) ≠ [] →
      ∀ q, alookup (fetch (filePaths.filter
          (fun p => isPathRelevant st.projectDirectory p))) q = some StatusCodeId.clean →
        alookup (updateStatuses st filePaths options fetch).state.hgStatusCache q = none) := by
  refine ⟨fun q => updateStatuses_cache_no_clean st filePaths options fetch hnd hinv q, ?_⟩
  intro hne q hclean
  rw [updateStatuses_cache_of_some st filePaths options fetch hne hnd q
    StatusCodeId.clean hclean]
  exact newCacheVal_of_clean _ (hinv q)

/-- Claim C4 witness: the theorem applied at a concrete state whose cache
holds one MODIFIED entry and whose response fetches it as CLEAN. -/
theorem claim_c4_clean_never_stored_witness :
    alookup (updateStatuses
      { initialState ["r"] with hgStatusCache := [(["r", "a"], StatusCodeId.modified)] }
      [["r", "a"]] none
      (fun _ => [(["r", "a"], StatusCodeId.clean)])).state.hgStatusCache ["r", "a"] =
      none := by
  have h := claim_c4_clean_never_stored
    { initialState ["r"] with hgStatusCache := [(["r", "a"], StatusCodeId.modified)] }
    [["r", "a"]] none (fun _ => [(["r", "a"], StatusCodeId.clean)])
    (by decide)
    (fun q => by
      show alookup [(["r", "a"], StatusCodeId.modified)] q ≠ some StatusCodeId.clean
      rw [alookup_cons]
      by_cases hq : (["r", "a"] : Path) = q
      · rw [if_pos hq]
        intro hh
        exact StatusCodeId.noConfusion (Option.some.inj hh)
      · rw [if_neg hq]
        intro hh
        exact Option.noConfusion hh)
  exact h.2 (by decide) ["r", "a"] (by decide)

/-- Claim C6: when the backend diff fetch fails for a batch (and at least one
path actually goes to fetch), updateDiffInfo returns none, nothing is
merged into the diff cache (only the removals queued before the run are
applied), and on completion the in-flight marker set is restored to
what it was at entry, so a requested path that was not already
in-flight is never left blocked. -/
theorem claim_c6_diff_failure (st : RepoState) (filePaths : List Path)
    (fetchDiffInfo : List Path → Option (List (Path × DiffInfo)))
    (hne : (computePathsToFetch st filePaths).pathsToFetch ≠ [])
    (hfail : fetchDiffInfo (computePathsToFetch st filePaths).pathsToFetch = none) :
    (updateDiffInfo st filePaths fetchDiffInfo).result = none ∧
    (∀ q, alookup (updateDiffInfo st filePaths fetchDiffInfo).state.hgDiffCache q =
      if q ∈ st.hgDiffCacheFilesToClear then none else alookup st.hgDiffCache q) ∧
    (∀ q, q ∈ (updateDiffInfo st filePaths fetchDiffInfo).state.hgDiffCacheFilesUpdating ↔
      q ∈ st.hgDiffCacheFilesUpdating) ∧
    (∀ q, q ∈ filePaths → q ∉ st.hgDiffCacheFilesUpdating →
      q ∉ (updateDiffInfo st filePaths fetchDiffInfo).state.hgDiffCacheFilesUpdating) := by
  have hcptf : computePathsToFetch st filePaths =
      ⟨st.hgDiffCacheFilesUpdating ++
          freshPaths st.projectDirectory st.hgDiffCacheFilesUpdating filePaths,
        freshPaths st.projectDirectory st.hgDiffCacheFilesUpdating filePaths⟩ := by
    show computePathsToFetchAux st.projectDirectory
      ⟨st.hgDiffCacheFilesUpdating, []⟩ filePaths = _
    rw [computePathsToFetchAux_eq]
    simp
  have hfresh_ne :
      freshPaths st.projectDirectory st.hgDiffCacheFilesUpdating filePaths ≠ [] := by
    intro hh
    apply hne
    rw [hcptf, hh]
  have hfe := isEmpty_false_of_ne_nil _ hfresh_ne
  have hfail2 : fetchDiffInfo
      (freshPaths st.projectDirectory st.hgDiffCacheFilesUpdating filePaths) = none := by
    rw [hcptf] at hfail
    exact hfail
  have hmain : updateDiffInfo st filePaths fetchDiffInfo =
      { state :=
          { st with
            hgDiffCache := eraseAllKeys st.hgDiffCache st.hgDiffCacheFilesToClear,
            hgDiffCacheFilesToClear := [],
            hgDiffCacheFilesUpdating :=
              (freshPaths st.projectDirectory st.hgDiffCacheFilesUpdating
                  filePaths).foldl (fun s p => s.filter (fun q => q ≠ p))
                (st.hgDiffCacheFilesUpdating ++
                  freshPaths st.projectDirectory st.hgDiffCacheFilesUpdating filePaths) },
        result := none,
        events := [Event.didChangeStatuses],
        calls := [ServiceCall.fetchDiffInfo
          (freshPaths st.projectDirectory st.hgDiffCacheFilesUpdating filePaths)] } := by
    simp only [updateDiffInfo, hcptf, hfe, Bool.false_eq_true, if_false, hfail2]
  rw [hmain]
  refine ⟨rfl, ?_, ?_, ?_⟩
  · intro q
    exact eraseAllKeys_alookup st.hgDiffCacheFilesToClear st.hgDiffCache q
  · intro q
    rw [mem_foldl_filter_remove]
    constructor
    · rintro ⟨hm, hnf⟩
      rcases List.mem_append.mp hm with hm | hm
      · exact hm
      · exact absurd hm hnf
    · intro hu
      exact ⟨List.mem_append.mpr (Or.inl hu),
        fun hf => mem_freshPaths_not_mem st.projectDirectory filePaths _ q hf hu⟩
  · intro q _ hnot hmem
    rcases (mem_foldl_filter_remove _ _ _).mp hmem with ⟨hm, hnf⟩
    rcases List.mem_append.mp hm with hm | hm
    · exact hnot hm
    · exact hnf hm

/-- Claim C6 witness: the theorem applied at a concrete state with one
relevant requested path, a failing backend, and one queued removal. -/
theorem claim_c6_diff_failure_witness :
    (updateDiffInfo
      { initialState ["r"] with
          hgDiffCache := [(["r", "b"], { added := 1, deleted := 2, lineDiffs := [3] })],
          hgDiffCacheFilesToClear := [["r", "b"]] }
      [["r", "a"]] (fun _ => none)).result = none ∧
    (["r", "a"] : Path) ∉ (updateDiffInfo
      { initialState ["r"] with
          hgDiffCache := [(["r", "b"], { added := 1, deleted := 2, lineDiffs := [3] })],
          hgDiffCacheFilesToClear := [["r", "b"]] }
      [["r", "a"]] (fun _ => none)).state.hgDiffCacheFilesUpdating := by
  have h := claim_c6_diff_failure
    { initialState ["r"] with
        hgDiffCache := [(["r", "b"], { added := 1, deleted := 2, lineDiffs := [3] })],
        hgDiffCacheFilesToClear := [["r", "b"]] }
    [["r", "a"]] (fun _ => none) (by decide) rfl
  exact ⟨h.1, h.2.2.2 ["r", "a"] (by decide) (by decide)⟩

/-!  Unfolding equations of the revision-cache fetchers. -/

theorem lruGet_snd_none {β : Type} (c : LRU β) (k : String)
    (h : alookup c.entries k = none) : (lruGet c k).2 = c := by
  unfold lruGet
  rw [h]

theorem fetchFilesChangedAtRevision_hit (st : RepoState) (rev : String)
    (bc : String → RevisionFileChanges) (v : RevisionFileChanges)
    (h : alookup st.revisionIdToFileChanges.entries rev = some v) :
    fetchFilesChangedAtRevision st rev bc =
      { state := { st with
          revisionIdToFileChanges := (lruGet st.revisionIdToFileChanges rev).2 },
        changes := v,
        calls := [] } := by
  simp only [fetchFilesChangedAtRevision, lruGet_fst, h]

theorem fetchFilesChangedAtRevision_miss (st : RepoState) (rev : String)
    (bc : String → RevisionFileChanges)
    (h : alookup st.revisionIdToFileChanges.entries rev = none) :
    fetchFilesChangedAtRevision st rev bc =
      { state := { st with
          revisionIdToFileChanges := lruSet st.revisionIdToFileChanges rev (bc rev) },
        changes := bc rev,
        calls := [ServiceCall.fetchFilesChangedAtRevision rev] } := by
  simp only [fetchFilesChangedAtRevision, lruGet_fst, h, lruGet_snd_none _ _ h]

theorem fetchFileContentAtRevision_hit (st : RepoState) (p : Path) (rev : String)
    (b : Path → String → String) (m : List (Path × String)) (c : String)
    (hm : alookup st.fileContentsAtRevisionIds.entries rev = some m)
    (hc : alookup m p = some c) :
    fetchFileContentAtRevision st p rev b =
      { state := { st with
          fileContentsAtRevisionIds := (lruGet st.fileContentsAtRevisionIds rev).2 },
        contents := c,
        calls := [] } := by
  simp only [fetchFileContentAtRevision, lruGet_fst, hm, hc]

theorem fetchFileContentAtRevision_p_miss (st : RepoState) (p : Path) (rev : String)
    (b : Path → String → String) (m : List (Path × String))
    (hm : alookup st.fileContentsAtRevisionIds.entries rev = some m)
    (hc : alookup m p = none) :
    fetchFileContentAtRevision st p rev b =
      { state := { st with
          fileContentsAtRevisionIds :=
            lruModify (lruGet st.fileContentsAtRevisionIds rev).2 rev
              (fun mm => aset mm p (b p rev)) },
        contents := b p rev,
        calls := [ServiceCall.fetchFileContentAtRevision p rev] } := by
  simp only [fetchFileContentAtRevision, lruGet_fst, hm, hc]

theorem fetchFileContentAtRevision_rev_miss (st : RepoState) (p : Path) (rev : String)
    (b : Path → String → String)
    (h : alookup st.fileContentsAtRevisionIds.entries rev = none) :
    fetchFileContentAtRevision st p rev b =
      { state := { st with
          fileContentsAtRevisionIds :=
            lruModify (lruSet st.fileContentsAtRevisionIds rev []) rev
              (fun mm => aset mm p (b p rev)) },
        contents := b p rev,
        calls := [ServiceCall.fetchFileContentAtRevision p rev] } := by
  simp only [fetchFileContentAtRevision, lruGet_fst, h, lruGet_snd_none _ _ h]
  rfl

/-- Claim C9: the two revision caches are read-through memoizations.  The
constructor builds them as LRU caches of capacity 100 (changed-file
lists) and 20 (file contents).  A hit returns the cached value with no
backend call; a miss fetches once, stores the value under its key, and
an immediately following lookup of the same key is served from the
cache with no backend call; both operations keep the entry count within
the capacity. -/
theorem claim_c9_revision_caches (proj : Path) (st : RepoState) (rev : String) (p : Path)
    (bc : String → RevisionFileChanges) (b : Path → String → String) :
    ((initialState proj).revisionIdToFileChanges.max = 100 ∧
     (initialState proj).fileContentsAtRevisionIds.max = 20) ∧
    (∀ v, alookup st.revisionIdToFileChanges.entries rev = some v →
      (fetchFilesChangedAtRevision st rev bc).changes = v ∧
      (fetchFilesChangedAtRevision st rev bc).calls = []) ∧
    (alookup st.revisionIdToFileChanges.entries rev = none →
      1 ≤ st.revisionIdToFileChanges.max →
      (fetchFilesChangedAtRevision st rev bc).calls =
        [ServiceCall.fetchFilesChangedAtRevision rev] ∧
      (fetchFilesChangedAtRevision st rev bc).changes = bc rev ∧
      (fetchFilesChangedAtRevision
        (fetchFilesChangedAtRevision st rev bc).state rev bc).changes = bc rev ∧
      (fetchFilesChangedAtRevision
        (fetchFilesChangedAtRevision st rev bc).state rev bc).calls = []) ∧
    (∀ m c, alookup st.fileContentsAtRevisionIds.entries rev = some m →
      alookup m p = some c →
      (fetchFileContentAtRevision st p rev b).contents = c ∧
      (fetchFileContentAtRevision st p rev b).calls = []) ∧
    (alookup st.fileContentsAtRevisionIds.entries rev = none →
      1 ≤ st.fileContentsAtRevisionIds.max →
      (fetchFileContentAtRevision st p rev b).calls =
        [ServiceCall.fetchFileContentAtRevision p rev] ∧
      (fetchFileContentAtRevision st p rev b).contents = b p rev ∧
      (fetchFileContentAtRevision
        (fetchFileContentAtRevision st p rev b).state p rev b).contents = b p rev ∧
      (fetchFileContentAtRevision
        (fetchFileContentAtRevision st p rev b).state p rev b).calls = []) ∧
    (∀ m, alookup st.fileContentsAtRevisionIds.entries rev = some m →
      alookup m p = none →
      (fetchFileContentAtRevision st p rev b).calls =
        [ServiceCall.fetchFileContentAtRevision p rev] ∧
      (fetchFileContentAtRevision st p rev b).contents = b p rev ∧
      (fetchFileContentAtRevision
        (fetchFileContentAtRevision st p rev b).state p rev b).contents = b p rev ∧
      (fetchFileContentAtRevision
        (fetchFileContentAtRevision st p rev b).state p rev b).calls = []) ∧
    (st.revisionIdToFileChanges.entries.length ≤ st.revisionIdToFileChanges.max →
      (fetchFilesChangedAtRevision st rev bc).state.revisionIdToFileChanges.entries.length ≤
        (fetchFilesChangedAtRevision st rev bc).state.revisionIdToFileChanges.max) ∧
    (st.fileContentsAtRevisionIds.entries.length ≤ st.fileContentsAtRevisionIds.max →
      (fetchFileContentAtRevision st p rev b).state.fileContentsAtRevisionIds.entries.length ≤
        (fetchFileContentAtRevision st p rev b).state.fileContentsAtRevisionIds.max) := by
  refine ⟨⟨rfl, rfl⟩, ?_, ?_, ?_, ?_, ?_, ?_, ?_⟩
  · intro v h
    rw [fetchFilesChangedAtRevision_hit st rev bc v h]
    exact ⟨rfl, rfl⟩
  · intro h hmax
    rw [fetchFilesChangedAtRevision_miss st rev bc h]
    refine ⟨rfl, rfl, ?_, ?_⟩
    · rw [fetchFilesChangedAtRevision_hit _ rev bc (bc rev)
        (lruSet_alookup_self st.revisionIdToFileChanges rev (bc rev) hmax)]
    · rw [fetchFilesChangedAtRevision_hit _ rev bc (bc rev)
        (lruSet_alookup_self st.revisionIdToFileChanges rev (bc rev) hmax)]
  · intro m c hm hc
    rw [fetchFileContentAtRevision_hit st p rev b m c hm hc]
    exact ⟨rfl, rfl⟩
  · intro h hmax
    rw [fetchFileContentAtRevision_rev_miss st p rev b h]
    have hrev2 : alookup (lruModify (lruSet st.fileContentsAtRevisionIds rev []) rev
        (fun mm => aset mm p (b p rev))).entries rev = some (aset [] p (b p rev)) := by
      rw [lruModify_alookup_self,
        lruSet_alookup_self st.fileContentsAtRevisionIds rev [] hmax]
      rfl
    refine ⟨rfl, rfl, ?_, ?_⟩
    · rw [fetchFileContentAtRevision_hit _ p rev b (aset [] p (b p rev)) (b p rev)
        hrev2 (aset_alookup_self _ _ _)]
    · rw [fetchFileContentAtRevision_hit _ p rev b (aset [] p (b p rev)) (b p rev)
        hrev2 (aset_alookup_self _ _ _)]
  · intro m hm hc
    rw [fetchFileContentAtRevision_p_miss st p rev b m hm hc]
    have hmoved : alookup (lruGet st.fileContentsAtRevisionIds rev).2.entries rev =
        some m := by
      rw [lruGet_entries_alookup]
      exact hm
    have hrev2 : alookup (lruModify (lruGet st.fileContentsAtRevisionIds rev).2 rev
        (fun mm => aset mm p (b p rev))).entries rev = some (aset m p (b p rev)) := by
      rw [lruModify_alookup_self, hmoved]
      rfl
    refine ⟨rfl, rfl, ?_, ?_⟩
    · rw [fetchFileContentAtRevision_hit _ p rev b (aset m p (b p rev)) (b p rev)
        hrev2 (aset_alookup_self _ _ _)]
    · rw [fetchFileContentAtRevision_hit _ p rev b (aset m p (b p rev)) (b p rev)
        hrev2 (aset_alookup_self _ _ _)]
  · intro hlen
    cases h : alookup st.revisionIdToFileChanges.entries rev with
    | some v =>
      rw [fetchFilesChangedAtRevision_hit st rev bc v h]
      show (lruGet st.revisionIdToFileChanges rev).2.entries.length ≤
        (lruGet st.revisionIdToFileChanges rev).2.max
      rw [lruGet_max]
      exact Nat.le_trans (lruGet_length_le _ _) hlen
    | none =>
      rw [fetchFilesChangedAtRevision_miss st rev bc h]
      show (lruSet st.revisionIdToFileChanges rev (bc rev)).entries.length ≤
        (lruSet st.revisionIdToFileChanges rev (bc rev)).max
      rw [lruSet_max]
      exact lruSet_length_le _ _ _
  · intro hlen
    cases h : alookup st.fileContentsAtRevisionIds.entries rev with
    | some m =>
      cases hc : alookup m p with
      | some c =>
        rw [fetchFileContentAtRevision_hit st p rev b m c h hc]
        show (lruGet st.fileContentsAtRevisionIds rev).2.entries.length ≤
          (lruGet st.fileContentsAtRevisionIds rev).2.max
        rw [lruGet_max]
        exact Nat.le_trans (lruGet_length_le _ _) hlen
      | none =>
        rw [fetchFileContentAtRevision_p_miss st p rev b m h hc]
        show (lruModify (lruGet st.fileContentsAtRevisionIds rev).2 rev
            (fun mm => aset mm p (b p rev))).entries.length ≤
          (lruModify (lruGet st.fileContentsAtRevisionIds rev).2 rev
            (fun mm => aset mm p (b p rev))).max
        rw [lruModify_length, lruModify_max, lruGet_max]
        exact Nat.le_trans (lruGet_length_le _ _) hlen
    | none =>
      rw [fetchFileContentAtRevision_rev_miss st p rev b h]
      show (lruModify (lruSet st.fileContentsAtRevisionIds rev []) rev
          (fun mm => aset mm p (b p rev))).entries.length ≤
        (lruModify (lruSet st.fileContentsAtRevisionIds rev []) rev
          (fun mm => aset mm p (b p rev))).max
      rw [lruModify_length, lruModify_max, lruSet_max]
      exact lruSet_length_le _ _ _

/-- Claim C9 witness: the theorem applied at the freshly constructed state, a
miss on the changed-list cache followed by the cached re-read. -/
theorem claim_c9_revision_caches_witness :
    (fetchFilesChangedAtRevision (initialState ["r"]) "deadbeef"
      (fun _ => [["r", "a"]])).changes = [["r", "a"]] ∧
    (fetchFilesChangedAtRevision
      (fetchFilesChangedAtRevision (initialState ["r"]) "deadbeef"
        (fun _ => [["r", "a"]])).state "deadbeef" (fun _ => [["r", "a"]])).calls = [] := by
  have h := claim_c9_revision_caches ["r"] (initialState ["r"]) "deadbeef" ["r", "a"]
    (fun _ => [["r", "a"]]) (fun _ _ => "x")
  have h2 := h.2.2.1 rfl (by decide)
  exact ⟨h2.2.1, h2.2.2.2⟩

/-!  Remaining small association-list facts used by the getStatuses
idempotence proof. -/

theorem alookup_nil {α β : Type} [DecidableEq α] (q : α) :
    alookup ([] : List (α × β)) q = none := rfl

theorem alookup_some_mem {α β : Type} [DecidableEq α]
    (m : List (α × β)) (q : α) (s : β) (h : alookup m q = some s) : (q, s) ∈ m := by
  induction m with
  | nil => exact Option.noConfusion h
  | cons e rest ih =>
    rcases e with ⟨k, v⟩
    rw [alookup_cons] at h
    by_cases hk : k = q
    · rw [if_pos hk] at h
      injection h with hv
      subst hv
      subst hk
      exact List.mem_cons_self _ _
    · rw [if_neg hk] at h
      exact List.mem_cons_of_mem _ (ih h)

theorem newCacheVal_none_of_ne_clean (s : StatusCodeId) (h : s ≠ StatusCodeId.clean) :
    newCacheVal none s = some s := by
  unfold newCacheVal eventCond
  simp [h]

/-- Claim C3 amended: starting from any state, querying duplicate-free,
relevant paths against a backend whose responses cover exactly the
queried paths with statuses that are neither CLEAN nor filtered out by
the option predicate, a second getStatuses call with the same arguments
and no intervening mutation returns the identical path-to-status
mapping and issues no backend fetchStatuses call.  (The restriction on
the response is forced by the counterexample: a path whose fetched
status is CLEAN, or one absent from the response, is not stored in the
cache, so the second call would fetch again.) -/
theorem claim_c3_get_statuses_idempotent (st : RepoState) (paths : List Path)
    (options : Option HgStatusCommandOptions)
    (fetch : List Path → List (Path × StatusCodeId))
    (hnd : paths.Nodup)
    (hrel : ∀ p ∈ paths, isPathRelevant st.projectDirectory p = true)
    (hkeys : ∀ qs : List Path, (fetch qs).map Prod.fst = qs)
    (hstat : ∀ qs : List Path, ∀ e ∈ fetch qs, e.2 ≠ StatusCodeId.clean ∧
      getPredicateForRelevantStatuses options e.2 = true) :
    (∀ q, alookup (getStatuses (getStatuses st paths options fetch).state
        paths options fetch).resultMap q =
      alookup (getStatuses st paths options fetch).resultMap q) ∧
    (getStatuses (getStatuses st paths options fetch).state paths options fetch).calls =
      [] := by
  have hmisses : (getStatusesScan st.hgStatusCache
      (getPredicateForRelevantStatuses options)
      { statusMap := [], pathsWithCacheMiss := [] } paths).pathsWithCacheMiss =
      paths.filter (fun p => (alookup st.hgStatusCache p).isNone) := by
    simpa using getStatusesScan_misses st.hgStatusCache
      (getPredicateForRelevantStatuses options) paths
      { statusMap := [], pathsWithCacheMiss := [] }
  by_cases hm : paths.filter (fun p => (alookup st.hgStatusCache p).isNone) = []
  · -- every queried path is already cached: both calls are pure reads
    have hscan_e : (getStatusesScan st.hgStatusCache
        (getPredicateForRelevantStatuses options)
        { statusMap := [], pathsWithCacheMiss := [] } paths).pathsWithCacheMiss.isEmpty =
        true := by
      rw [hmisses, hm]
      rfl
    have hr1 : getStatuses st paths options fetch =
        { state := st,
          resultMap := (getStatusesScan st.hgStatusCache
            (getPredicateForRelevantStatuses options)
            { statusMap := [], pathsWithCacheMiss := [] } paths).statusMap,
          events := [],
          calls := [] } := by
      simp only [getStatuses, hscan_e, if_true]
    have hstate1 : (getStatuses st paths options fetch).state = st := by
      rw [hr1]
    refine ⟨?_, ?_⟩
    · intro q
      rw [hstate1]
    · rw [hstate1, hr1]
  · -- at least one miss: the first call fetches and caches, the second hits
    have hMsub : ∀ q ∈ paths.filter (fun p => (alookup st.hgStatusCache p).isNone),
        q ∈ paths := fun q hq => (List.mem_filter.mp hq).1
    have hMnone : ∀ q ∈ paths.filter (fun p => (alookup st.hgStatusCache p).isNone),
        alookup st.hgStatusCache q = none := fun q hq =>
      Option.isNone_iff_eq_none.mp (by simpa using (List.mem_filter.mp hq).2)
    have hMnd : (paths.filter (fun p => (alookup st.hgStatusCache p).isNone)).Nodup :=
      hnd.filter _
    have hMfilt : (paths.filter (fun p => (alookup st.hgStatusCache p).isNone)).filter
        (fun p => isPathRelevant st.projectDirectory p) =
        paths.filter (fun p => (alookup st.hgStatusCache p).isNone) :=
      List.filter_eq_self.mpr (fun a ha => hrel a (hMsub a ha))
    have hMfne : (paths.filter (fun p => (alookup st.hgStatusCache p).isNone)).filter
        (fun p => isPathRelevant st.projectDirectory p) ≠ [] := by
      rw [hMfilt]
      exact hm
    have hkeysM := hkeys (paths.filter (fun p => (alookup st.hgStatusCache p).isNone))
    have hndresp : ((fetch (paths.filter
        (fun p => (alookup st.hgStatusCache p).isNone))).map Prod.fst).Nodup := by
      rw [hkeysM]
      exact hMnd
    have hq_notin : ∀ q, q ∉ paths.filter (fun p => (alookup st.hgStatusCache p).isNone) →
        alookup (fetch (paths.filter (fun p => (alookup st.hgStatusCache p).isNone))) q =
        none := by
      intro q hq
      apply alookup_eq_none_of_not_mem_keys
      rw [hkeysM]
      exact hq
    have hq_in : ∀ q ∈ paths.filter (fun p => (alookup st.hgStatusCache p).isNone),
        ∃ s, alookup (fetch (paths.filter
          (fun p => (alookup st.hgStatusCache p).isNone))) q = some s ∧
          s ≠ StatusCodeId.clean ∧
          getPredicateForRelevantStatuses options s = true := by
      intro q hq
      have hsome : (alookup (fetch (paths.filter
          (fun p => (alookup st.hgStatusCache p).isNone))) q).isSome := by
        apply alookup_isSome_of_mem_keys
        rw [hkeysM]
        exact hq
      rcases Option.isSome_iff_exists.mp hsome with ⟨s, hs⟩
      have hmem := alookup_some_mem _ _ _ hs
      have hprop := hstat (paths.filter (fun p => (alookup st.hgStatusCache p).isNone))
        (q, s) hmem
      exact ⟨s, hs, hprop.1, hprop.2⟩
    -- the first call runs updateStatuses on exactly the misses
    have hscan_ne : (getStatusesScan st.hgStatusCache
        (getPredicateForRelevantStatuses options)
        { statusMap := [], pathsWithCacheMiss := [] } paths).pathsWithCacheMiss.isEmpty =
        false := by
      rw [hmisses]
      exact isEmpty_false_of_ne_nil _ hm
    have hfilter_ne : (paths.filter
        (fun p => (alookup st.hgStatusCache p).isNone)).isEmpty = false :=
      isEmpty_false_of_ne_nil _ hm
    have hr1_state : (getStatuses st paths options fetch).state =
        (updateStatuses st (paths.filter (fun p => (alookup st.hgStatusCache p).isNone))
          options fetch).state := by
      simp only [getStatuses, hmisses, hfilter_ne, Bool.false_eq_true, if_false]
    have hr1_map : (getStatuses st paths options fetch).resultMap =
        setStatusNumbers
          ((getStatusesScan st.hgStatusCache (getPredicateForRelevantStatuses options)
            { statusMap := [], pathsWithCacheMiss := [] } paths).statusMap)
          ((updateStatuses st
            (paths.filter (fun p => (alookup st.hgStatusCache p).isNone))
            options fetch).statusMap) := by
      simp only [getStatuses, hmisses, hfilter_ne, Bool.false_eq_true, if_false]
    have hUmap : (updateStatuses st
        (paths.filter (fun p => (alookup st.hgStatusCache p).isNone))
        options fetch).statusMap =
        fetch (paths.filter (fun p => (alookup st.hgStatusCache p).isNone)) := by
      rw [updateStatuses_statusMap st _ options fetch hMfne, hMfilt]
    -- cache contents after the first call
    have hcache1_mem : ∀ q ∈ paths.filter (fun p => (alookup st.hgStatusCache p).isNone),
        ∃ s, alookup (fetch (paths.filter
            (fun p => (alookup st.hgStatusCache p).isNone))) q = some s ∧
          alookup (updateStatuses st
            (paths.filter (fun p => (alookup st.hgStatusCache p).isNone))
            options fetch).state.hgStatusCache q = some s ∧
          getPredicateForRelevantStatuses options s = true := by
      intro q hq
      rcases hq_in q hq with ⟨s, hs, hsc, hsp⟩
      refine ⟨s, hs, ?_, hsp⟩
      have h1 := updateStatuses_cache_of_some st
        (paths.filter (fun p => (alookup st.hgStatusCache p).isNone)) options fetch
        hMfne (by rw [hMfilt]; exact hndresp) q s (by rw [hMfilt]; exact hs)
      rw [h1, hMnone q hq]
      exact newCacheVal_none_of_ne_clean s hsc
    have hcache1_notmem : ∀ q,
        q ∉ paths.filter (fun p => (alookup st.hgStatusCache p).isNone) →
        alookup (updateStatuses st
          (paths.filter (fun p => (alookup st.hgStatusCache p).isNone))
          options fetch).state.hgStatusCache q = alookup st.hgStatusCache q := by
      intro q hq
      apply updateStatuses_cache_of_none st _ options fetch hMfne q
      · rw [hMfilt]
        exact hq_notin q hq
      · intro hmem
        rw [hMfilt] at hmem
        exact hq ((mem_queriedFilesOf _ _ q).mp hmem).1
    -- every queried path hits the cache in the second call
    have hcache1_paths : ∀ q ∈ paths,
        (alookup (updateStatuses st
          (paths.filter (fun p => (alookup st.hgStatusCache p).isNone))
          options fetch).state.hgStatusCache q).isSome := by
      intro q hq
      by_cases hqM : q ∈ paths.filter (fun p => (alookup st.hgStatusCache p).isNone)
      · rcases hcache1_mem q hqM with ⟨s, _, hc, _⟩
        rw [hc]
        rfl
      · rw [hcache1_notmem q hqM]
        cases hlq : alookup st.hgStatusCache q with
        | some s => rfl
        | none =>
          exact absurd (List.mem_filter.mpr ⟨hq, by simp [hlq]⟩) hqM
    have hscan2_misses : (getStatusesScan
        (updateStatuses st (paths.filter (fun p => (alookup st.hgStatusCache p).isNone))
          options fetch).state.hgStatusCache
        (getPredicateForRelevantStatuses options)
        { statusMap := [], pathsWithCacheMiss := [] } paths).pathsWithCacheMiss = [] := by
      have h1 := getStatusesScan_misses
        (updateStatuses st (paths.filter (fun p => (alookup st.hgStatusCache p).isNone))
          options fetch).state.hgStatusCache
        (getPredicateForRelevantStatuses options) paths
        { statusMap := [], pathsWithCacheMiss := [] }
      rw [h1]
      simp only [List.nil_append]
      rw [List.filter_eq_nil_iff]
      intro q hq
      have := hcache1_paths q hq
      simp [Option.isNone_iff_eq_none]
      intro hcontra
      rw [hcontra] at this
      exact Bool.noConfusion this
    have hscan2_e : (getStatusesScan
        (updateStatuses st (paths.filter (fun p => (alookup st.hgStatusCache p).isNone))
          options fetch).state.hgStatusCache
        (getPredicateForRelevantStatuses options)
        { statusMap := [], pathsWithCacheMiss := [] } paths).pathsWithCacheMiss.isEmpty =
        true := by
      rw [hscan2_misses]
      rfl
    have hr2 : getStatuses (updateStatuses st
        (paths.filter (fun p => (alookup st.hgStatusCache p).isNone))
        options fetch).state paths options fetch =
        { state := (updateStatuses st
            (paths.filter (fun p => (alookup st.hgStatusCache p).isNone))
            options fetch).state,
          resultMap := (getStatusesScan
            (updateStatuses st
              (paths.filter (fun p => (alookup st.hgStatusCache p).isNone))
              options fetch).state.hgStatusCache
            (getPredicateForRelevantStatuses options)
            { statusMap := [], pathsWithCacheMiss := [] } paths).statusMap,
          events := [],
          calls := [] } := by
      simp only [getStatuses, hscan2_e, if_true]
    refine ⟨?_, ?_⟩
    · intro q
      rw [hr1_state, hr2, hr1_map, hUmap]
      show alookup (getStatusesScan _ _ _ paths).statusMap q = _
      by_cases hqp : q ∈ paths
      · by_cases hqM : q ∈ paths.filter (fun p => (alookup st.hgStatusCache p).isNone)
        · rcases hcache1_mem q hqM with ⟨s, hs, hc, hsp⟩
          rw [getStatusesScan_map_hit _ _ paths q s hc hsp _ hqp]
          rw [setStatusNumbers_alookup_some _ _ q s hndresp hs]
        · have hq_none := hq_notin q hqM
          have hs0ex : (alookup st.hgStatusCache q).isSome = true := by
            cases hlq : alookup st.hgStatusCache q with
            | some s => rfl
            | none => exact absurd (List.mem_filter.mpr ⟨hqp, by simp [hlq]⟩) hqM
          rcases Option.isSome_iff_exists.mp hs0ex with ⟨s0, hs0⟩
          have hc1 : alookup (updateStatuses st
              (paths.filter (fun p => (alookup st.hgStatusCache p).isNone))
              options fetch).state.hgStatusCache q = some s0 := by
            rw [hcache1_notmem q hqM]
            exact hs0
          rw [setStatusNumbers_alookup_none _ _ q hq_none]
          by_cases hsp : getPredicateForRelevantStatuses options s0 = true
          · rw [getStatusesScan_map_hit _ _ paths q s0 hc1 hsp _ hqp]
            rw [getStatusesScan_map_hit _ _ paths q s0 hs0 hsp _ hqp]
          · have hsp2 : getPredicateForRelevantStatuses options s0 = false :=
              Bool.eq_false_iff.mpr hsp
            rw [getStatusesScan_map_skip _ _ paths q s0 hc1 hsp2 _]
            rw [getStatusesScan_map_skip _ _ paths q s0 hs0 hsp2 _]
      · rw [getStatusesScan_map_not_mem _ _ paths q hqp _]
        rw [setStatusNumbers_alookup_none]
        · rw [getStatusesScan_map_not_mem _ _ paths q hqp _]
        · apply hq_notin
          intro hqM
          exact hqp (hMsub q hqM)
    · rw [hr1_state, hr2]

/-- Claim C3 witness: the amended theorem applied with one relevant path and
a backend that reports it MODIFIED. -/
theorem claim_c3_get_statuses_idempotent_witness :
    (getStatuses (getStatuses (initialState ["r"]) [["r", "a"]] none
      (fun qs => qs.map (fun q => (q, StatusCodeId.modified)))).state
      [["r", "a"]] none
      (fun qs => qs.map (fun q => (q, StatusCodeId.modified)))).calls = [] := by
  have h := claim_c3_get_statuses_idempotent (initialState ["r"]) [["r", "a"]] none
    (fun qs => qs.map (fun q => (q, StatusCodeId.modified)))
    (by decide) (by decide)
    (fun qs => by
      have hcomp : (Prod.fst ∘ fun q : Path => (q, StatusCodeId.modified)) = id := rfl
      rw [List.map_map, hcomp, List.map_id])
    (fun qs e he => by
      rcases List.mem_map.mp he with ⟨q, _, hq⟩
      subst hq
      exact ⟨fun hh => StatusCodeId.noConfusion hh, rfl⟩)
  exact h.2

/-- Claim C3 counterexample: a relevant path whose backend response is empty
(the path is clean, so it is never cached) makes the second identical
getStatuses call issue a second backend fetchStatuses call, refuting
that no second backend call is issued. -/
theorem claim_c3_counterexample :
    (getStatuses (initialState ["r"]) [["r", "a"]] none (fun _ => [])).calls =
      [ServiceCall.fetchStatuses [["r", "a"]] none] ∧
    (getStatuses (getStatuses (initialState ["r"]) [["r", "a"]] none
      (fun _ => [])).state [["r", "a"]] none (fun _ => [])).calls =
      [ServiceCall.fetchStatuses [["r", "a"]] none] := by
  refine ⟨by decide, by decide⟩

end Hg
